import Mathlib

/-!
# Verification of the `goit-pycore-hw-07` contact book core

Shallow embedding of `src/contacts/fields.py` and
`src/contacts/address_book.py`: validated fields (`Phone`, `Birthday`,
`Name`), the `Record` phone-list operations, and
`AddressBook.get_upcoming_birthdays`.

Python `datetime.date` values are embedded as `Contacts.Date`
(year/month/day as `Nat`); `date.toordinal`, `weekday` and
`timedelta` arithmetic follow CPython's `datetime` module.
`datetime.strptime(v, "%d.%m.%Y")` is embedded following CPython's
`_strptime` regex table: `%d` matches `3[01]|[12]\d|0[1-9]|[1-9]`,
`%m` matches `1[0-2]|0[1-9]|[1-9]`, `%Y` matches `\d\d\d\d`, the
separators are literal dots and the whole string must be consumed;
the captured fields go through `int()`, and the resulting numbers must
form a constructible `datetime` (year 1–9999, day within the month's
length).  In a `str` pattern `\d` matches any Unicode decimal digit
(category Nd) — while the explicit classes like `[1-9]` and `[0-2]`
are ASCII — so days such as `"1２"` (fullwidth second digit) and fully
non-ASCII four-digit years are accepted; the Nd runs are tabulated in
`ndRuns`.  `strftime("%d.%m.%Y")` zero-pads day and month to two
digits, while `%Y` prints the year unpadded (the C library behavior on
this platform), so years below 1000 render with fewer than four digits
and then fail `%Y` on re-parse.
-/

namespace Contacts

/-! ## Decimal digit strings -/

/-- Value of a decimal digit character (`'0'` ↦ 0, …, `'9'` ↦ 9). -/
def digitVal (c : Char) : Nat := c.toNat - 48

/-- The decimal digit character for `n < 10`. -/
def digitChar (n : Nat) : Char :=
  match n with
  | 0 => '0' | 1 => '1' | 2 => '2' | 3 => '3' | 4 => '4'
  | 5 => '5' | 6 => '6' | 7 => '7' | 8 => '8' | _ => '9'

/-- Fuel-driven digit expansion (structural recursion on the fuel so
concrete values reduce inside the kernel; the fuel never runs out when
it starts at `n`). -/
def natDigitsGo : Nat → Nat → List Char
  | 0, n => [digitChar n]
  | fuel + 1, n =>
    if n < 10 then [digitChar n]
    else natDigitsGo fuel (n / 10) ++ [digitChar (n % 10)]

/-- Big-endian decimal digit characters of `n` (as Python's `str(n)`). -/
def natDigits (n : Nat) : List Char := natDigitsGo n n

theorem natDigitsGo_fuel (f1 : Nat) : ∀ f2 n : Nat, n ≤ f1 → n ≤ f2 →
    natDigitsGo f1 n = natDigitsGo f2 n := by
  induction f1 with
  | zero =>
    intro f2 n h1 h2
    have hn : n = 0 := Nat.le_zero.mp h1
    subst hn
    cases f2 with
    | zero => rfl
    | succ g => rw [natDigitsGo, natDigitsGo, if_pos (by omega)]
  | succ f ih =>
    intro f2 n h1 h2
    cases f2 with
    | zero =>
      have hn : n = 0 := Nat.le_zero.mp h2
      subst hn
      rw [natDigitsGo, natDigitsGo, if_pos (by omega)]
    | succ g =>
      rw [natDigitsGo, natDigitsGo]
      by_cases hlt : n < 10
      · rw [if_pos hlt, if_pos hlt]
      · rw [if_neg hlt, if_neg hlt]
        have hd : n / 10 < n := Nat.div_lt_self (by omega) (by omega)
        rw [ih g (n / 10) (by omega) (by omega)]

/-- The intended unfolding of `natDigits`. -/
theorem natDigits_eq (n : Nat) :
    natDigits n = if n < 10 then [digitChar n]
      else natDigits (n / 10) ++ [digitChar (n % 10)] := by
  by_cases h : n < 10
  · rw [if_pos h, natDigits]
    cases n with
    | zero => rfl
    | succ k => rw [natDigitsGo, if_pos h]
  · rw [if_neg h, natDigits]
    cases n with
    | zero => omega
    | succ k =>
      rw [natDigitsGo, if_neg h, natDigits]
      have hd : (k + 1) / 10 < k + 1 := Nat.div_lt_self (by omega) (by omega)
      rw [natDigitsGo_fuel k ((k + 1) / 10) ((k + 1) / 10) (by omega) (le_refl _)]

/-- Value of a big-endian list of decimal digit characters. -/
def digitsVal (l : List Char) : Nat :=
  l.foldl (fun a c => 10 * a + digitVal c) 0

theorem foldl_digits_shift (l : List Char) (a : Nat) :
    l.foldl (fun a c => 10 * a + digitVal c) a =
      a * 10 ^ l.length + l.foldl (fun a c => 10 * a + digitVal c) 0 := by
  induction l generalizing a with
  | nil => simp
  | cons c l ih =>
    simp only [List.foldl_cons, List.length_cons]
    rw [ih (10 * a + digitVal c), ih (10 * 0 + digitVal c)]
    ring

theorem digitVal_digitChar (n : Nat) (h : n < 10) : digitVal (digitChar n) = n := by
  interval_cases n <;> rfl

theorem digitChar_isDigit (n : Nat) (h : n < 10) : (digitChar n).isDigit = true := by
  interval_cases n <;> rfl

theorem digitsVal_natDigits (n : Nat) : digitsVal (natDigits n) = n := by
  induction n using Nat.strong_induction_on with
  | _ n ih =>
    rw [natDigits_eq]
    by_cases h : n < 10
    · rw [if_pos h]
      simp [digitsVal, digitVal_digitChar n h]
    · rw [if_neg h]
      have hd : n / 10 < n := Nat.div_lt_self (by omega) (by omega)
      have := ih (n / 10) hd
      simp only [digitsVal] at *
      rw [List.foldl_append, foldl_digits_shift [digitChar (n % 10)]
        (List.foldl (fun a c => 10 * a + digitVal c) 0 (natDigits (n / 10)))]
      simp only [this, List.length_cons, List.length_nil, List.foldl_cons, List.foldl_nil]
      rw [digitVal_digitChar (n % 10) (Nat.mod_lt n (by omega))]
      simp [pow_one]
      omega

theorem natDigits_all_digit (n : Nat) : ∀ c ∈ natDigits n, c.isDigit = true := by
  induction n using Nat.strong_induction_on with
  | _ n ih =>
    rw [natDigits_eq]
    by_cases h : n < 10
    · rw [if_pos h]
      intro c hc
      simp only [List.mem_singleton] at hc
      subst hc
      exact digitChar_isDigit n h
    · rw [if_neg h]
      intro c hc
      rcases List.mem_append.mp hc with h1 | h2
      · exact ih (n / 10) (Nat.div_lt_self (by omega) (by omega)) c h1
      · simp only [List.mem_singleton] at h2
        subst h2
        exact digitChar_isDigit _ (Nat.mod_lt n (by omega))

theorem natDigits_length_one (n : Nat) (h : n < 10) : (natDigits n).length = 1 := by
  rw [natDigits_eq]
  simp [h]

theorem natDigits_length_two (n : Nat) (h1 : 10 ≤ n) (h2 : n < 100) :
    (natDigits n).length = 2 := by
  rw [natDigits_eq]
  have h : ¬ n < 10 := by omega
  rw [if_neg h]
  simp only [List.length_append, List.length_cons, List.length_nil]
  rw [natDigits_length_one (n / 10) (by omega)]

theorem natDigits_length_le_four (n : Nat) (h : n < 10000) :
    (natDigits n).length ≤ 4 := by
  by_cases h1 : n < 10
  · rw [natDigits_length_one n h1]; omega
  by_cases h2 : n < 100
  · rw [natDigits_length_two n (by omega) h2]; omega
  by_cases h3 : n < 1000
  · rw [natDigits_eq]
    have h' : ¬ n < 10 := by omega
    rw [if_neg h']
    simp only [List.length_append, List.length_cons, List.length_nil]
    rw [natDigits_length_two (n / 10) (by omega) (by omega)]
    omega
  · rw [natDigits_eq]
    have h' : ¬ n < 10 := by omega
    rw [if_neg h']
    rw [natDigits_eq]
    have h'' : ¬ n / 10 < 10 := by omega
    rw [if_neg h'']
    simp only [List.length_append, List.length_cons, List.length_nil]
    rw [natDigits_length_two (n / 10 / 10) (by omega) (by omega)]

/-- Left-pad a digit list with `'0'` to width `w`
(Python `strftime` zero padding). -/
def padZero (w : Nat) (l : List Char) : List Char :=
  List.replicate (w - l.length) '0' ++ l

/-- `n` rendered as decimal, left-padded with zeros to width `w`. -/
def natPad (w n : Nat) : List Char := padZero w (natDigits n)

theorem digitsVal_replicate_zero (k : Nat) (l : List Char) :
    digitsVal (List.replicate k '0' ++ l) = digitsVal l := by
  induction k with
  | zero => simp
  | succ k ih =>
    simp only [List.replicate_succ, List.cons_append]
    simp only [digitsVal, List.foldl_cons] at *
    have : (10 * 0 + digitVal '0') = 0 := by rfl
    rw [this]
    exact ih

theorem digitsVal_natPad (w n : Nat) : digitsVal (natPad w n) = n := by
  rw [natPad, padZero, digitsVal_replicate_zero, digitsVal_natDigits]

theorem natPad_all_digit (w n : Nat) : ∀ c ∈ natPad w n, c.isDigit = true := by
  intro c hc
  rcases List.mem_append.mp hc with h1 | h2
  · rw [List.eq_of_mem_replicate h1]; rfl
  · exact natDigits_all_digit n c h2

theorem natPad_length_two (n : Nat) (h : n < 100) : (natPad 2 n).length = 2 := by
  rw [natPad, padZero, List.length_append, List.length_replicate]
  by_cases h1 : n < 10
  · rw [natDigits_length_one n h1]
  · rw [natDigits_length_two n (by omega) h]

theorem natPad_length_four (n : Nat) (h : n < 10000) : (natPad 4 n).length = 4 := by
  rw [natPad, padZero, List.length_append, List.length_replicate]
  have := natDigits_length_le_four n h
  have : (natDigits n).length ≥ 1 := by
    rw [natDigits_eq]
    by_cases h1 : n < 10 <;> simp [h1]
  omega

theorem natDigits_length_three (n : Nat) (h1 : 100 ≤ n) (h2 : n < 1000) :
    (natDigits n).length = 3 := by
  rw [natDigits_eq]
  have h : ¬ n < 10 := by omega
  rw [if_neg h]
  simp only [List.length_append, List.length_cons, List.length_nil]
  rw [natDigits_length_two (n / 10) (by omega) (by omega)]

theorem natDigits_length_four (n : Nat) (h1 : 1000 ≤ n) (h2 : n < 10000) :
    (natDigits n).length = 4 := by
  rw [natDigits_eq]
  have h : ¬ n < 10 := by omega
  rw [if_neg h]
  simp only [List.length_append, List.length_cons, List.length_nil]
  rw [natDigits_length_three (n / 10) (by omega) (by omega)]

theorem natDigits_length_le_three (n : Nat) (h : n < 1000) :
    (natDigits n).length ≤ 3 := by
  by_cases h1 : n < 10
  · rw [natDigits_length_one n h1]; omega
  by_cases h2 : n < 100
  · rw [natDigits_length_two n (by omega) h2]; omega
  · rw [natDigits_length_three n (by omega) h]

theorem isDigit_toNat_bounds (c : Char) (h : c.isDigit = true) :
    48 ≤ c.toNat ∧ c.toNat ≤ 57 := by
  simp [Char.isDigit] at h
  exact h

/-! ## Unicode decimal digits (`\d` in Python `str` regexes, `int()`)

Python's `re` module, on `str` patterns without `re.ASCII`, matches `\d`
against every character of Unicode general category Nd (decimal digit
number), and `int()` maps each such character to its digit value.  Every
Nd character sits in a contiguous run of ten code points carrying values
0–9; `ndRuns` lists the first code point of every such run (Unicode 15.0,
as shipped with current CPython).  The ASCII run `0x30` comes first. -/

/-- First code points of the Unicode 15.0 Nd runs (each run is ten
consecutive code points with digit values 0–9). -/
def ndRuns : List Nat :=
  [0x30, 0x660, 0x6F0, 0x7C0, 0x966, 0x9E6, 0xA66, 0xAE6, 0xB66, 0xBE6,
   0xC66, 0xCE6, 0xD66, 0xDE6, 0xE50, 0xED0, 0xF20, 0x1040, 0x1090, 0x17E0,
   0x1810, 0x1946, 0x19D0, 0x1A80, 0x1A90, 0x1B50, 0x1BB0, 0x1C40, 0x1C50,
   0xA620, 0xA8D0, 0xA900, 0xA9D0, 0xA9F0, 0xAA50, 0xABF0, 0xFF10,
   0x104A0, 0x10D30, 0x11066, 0x110F0, 0x11136, 0x111D0, 0x112F0, 0x11450,
   0x114D0, 0x11650, 0x116C0, 0x11730, 0x118E0, 0x11950, 0x11C50, 0x11D50,
   0x11DA0, 0x11F50, 0x16A60, 0x16AC0, 0x16B50, 0x1D7CE, 0x1D7D8, 0x1D7E2,
   0x1D7EC, 0x1D7F6, 0x1E140, 0x1E2F0, 0x1E4F0, 0x1E950, 0x1FBF0]

/-- `c` is a Unicode decimal digit (category Nd): what `\d` matches in a
Python `str` pattern. -/
def isNd (c : Char) : Bool :=
  ndRuns.any (fun r => decide (r ≤ c.toNat) && decide (c.toNat ≤ r + 9))

/-- The digit value of a Unicode decimal digit (its offset in its Nd
run), as `int()` computes it; 0 for non-digits. -/
def ndVal (c : Char) : Nat :=
  match ndRuns.find? (fun r => decide (r ≤ c.toNat) && decide (c.toNat ≤ r + 9)) with
  | some r => c.toNat - r
  | none => 0

/-- `int()` applied to a captured all-digit group: base-10 value from the
characters' digit values. -/
def pyFieldVal (l : List Char) : Nat :=
  l.foldl (fun a c => 10 * a + ndVal c) 0

theorem isNd_of_isDigit (c : Char) (h : c.isDigit = true) : isNd c = true := by
  obtain ⟨h1, h2⟩ := isDigit_toNat_bounds c h
  rw [isNd, List.any_eq_true]
  refine ⟨48, by rw [ndRuns]; exact List.mem_cons_self _ _, ?_⟩
  simp only [Bool.and_eq_true, decide_eq_true_eq]
  omega

theorem ndVal_eq_digitVal (c : Char) (h : c.isDigit = true) :
    ndVal c = digitVal c := by
  obtain ⟨h1, h2⟩ := isDigit_toNat_bounds c h
  rw [ndVal, ndRuns, List.find?_cons_of_pos _
    (by simp only [Bool.and_eq_true, decide_eq_true_eq]; omega)]
  rfl

theorem ndVal_le_nine (c : Char) (h : isNd c = true) : ndVal c ≤ 9 := by
  rw [ndVal]
  cases hf : ndRuns.find? (fun r => decide (r ≤ c.toNat) && decide (c.toNat ≤ r + 9)) with
  | none =>
    show (0 : Nat) ≤ 9
    omega
  | some r0 =>
    show c.toNat - r0 ≤ 9
    have := List.find?_some hf
    simp only [Bool.and_eq_true, decide_eq_true_eq] at this
    omega

theorem isNd_ne_dot (c : Char) (h : isNd c = true) : c ≠ '.' := by
  intro he
  subst he
  simp only [isNd, ndRuns] at h
  exact absurd h (by decide)

theorem pyFieldVal_eq_digitsVal (l : List Char)
    (h : ∀ c ∈ l, c.isDigit = true) : pyFieldVal l = digitsVal l := by
  rw [pyFieldVal, digitsVal]
  suffices hgen : ∀ a : Nat,
      l.foldl (fun a c => 10 * a + ndVal c) a =
        l.foldl (fun a c => 10 * a + digitVal c) a from hgen 0
  induction l with
  | nil => intro a; rfl
  | cons c cs ih =>
    intro a
    simp only [List.foldl_cons]
    rw [ndVal_eq_digitVal c (h c (List.mem_cons_self c cs))]
    exact ih (fun x hx => h x (List.mem_cons_of_mem c hx)) _

/-- The ASCII character class `[1-9]` of a Python `str` regex. -/
def asciiDigit19 (c : Char) : Bool := decide ('1' ≤ c) && decide (c ≤ '9')

theorem uint32_le_iff (a b : UInt32) : a ≤ b ↔ a.toNat ≤ b.toNat := by
  rw [UInt32.le_def]
  rfl

theorem asciiDigit19_iff (c : Char) :
    asciiDigit19 c = true ↔ (c.isDigit = true ∧ 1 ≤ digitVal c) := by
  simp [asciiDigit19, Char.isDigit, Char.le_def, digitVal]
  simp only [uint32_le_iff, show (49 : UInt32).toNat = 49 from rfl,
    show (48 : UInt32).toNat = 48 from rfl, show (57 : UInt32).toNat = 57 from rfl,
    show ∀ d : Char, d.val.toNat = d.toNat from fun _ => rfl]
  omega

/-! ## Calendar dates (CPython `datetime.date`) -/

/-- A calendar date, embedding Python's `datetime.date`
(the `Birthday` field stores a `datetime`, whose time parts
are always midnight here and are dropped). -/
structure Date where
  year : Nat
  month : Nat
  day : Nat
deriving DecidableEq, Repr

/-- CPython `datetime._is_leap`. -/
def isLeapYear (y : Nat) : Bool :=
  y % 4 = 0 && (y % 100 ≠ 0 || y % 400 = 0)

/-- CPython `datetime._days_in_month` (month 1–12). -/
def daysInMonth (y m : Nat) : Nat :=
  if m = 2 then (if isLeapYear y then 29 else 28)
  else if m = 4 ∨ m = 6 ∨ m = 9 ∨ m = 11 then 30
  else 31

/-- CPython `datetime._days_before_month`: days in year `y`
strictly before month `m`. -/
def daysBeforeMonth (y : Nat) : Nat → Nat
  | 0 => 0
  | 1 => 0
  | m + 2 => daysBeforeMonth y (m + 1) + daysInMonth y (m + 1)

/-- CPython `datetime._days_before_year`: days before January 1st of year `y`. -/
def daysBeforeYear (y : Nat) : Nat :=
  365 * (y - 1) + (y - 1) / 4 + (y - 1) / 400 - (y - 1) / 100

/-- CPython `date.toordinal`: day 1 is January 1st of year 1. -/
def toOrdinal (d : Date) : Nat :=
  daysBeforeYear d.year + daysBeforeMonth d.year d.month + d.day

/-- CPython `date.weekday`: 0 = Monday … 6 = Sunday. -/
def pyWeekday (d : Date) : Nat := (toOrdinal d + 6) % 7

/-- `(a - b).days` for two Python dates: difference in whole days. -/
def dayDiff (a b : Date) : Int := (toOrdinal a : Int) - (toOrdinal b : Int)

/-- The `datetime.date` constructor's validity check
(`MINYEAR = 1 ≤ year ≤ MAXYEAR = 9999`, month 1–12, day within month). -/
def dateOk (d : Date) : Bool :=
  1 ≤ d.year && d.year ≤ 9999 &&
  1 ≤ d.month && d.month ≤ 12 &&
  1 ≤ d.day && d.day ≤ daysInMonth d.year d.month

/-- Structural well-formedness without the upper year bound; enough for
ordinal arithmetic and preserved by `nextDay`. -/
def okD (d : Date) : Prop :=
  1 ≤ d.year ∧ 1 ≤ d.month ∧ d.month ≤ 12 ∧ 1 ≤ d.day ∧
    d.day ≤ daysInMonth d.year d.month

/-- The successor date (one `timedelta(days=1)` step). -/
def nextDay (d : Date) : Date :=
  if d.day < daysInMonth d.year d.month then ⟨d.year, d.month, d.day + 1⟩
  else if d.month < 12 then ⟨d.year, d.month + 1, 1⟩
  else ⟨d.year + 1, 1, 1⟩

/-- `d + timedelta(days=n)` for `n ≥ 0`. -/
def addDays (d : Date) : Nat → Date
  | 0 => d
  | n + 1 => addDays (nextDay d) n

/-- `date.replace(year=y)`: keeps month and day, revalidates
via the `date` constructor. -/
def replaceYear (d : Date) (y : Nat) : Option Date :=
  let r : Date := ⟨y, d.month, d.day⟩
  if dateOk r then some r else none

theorem daysBeforeMonth_succ (y m : Nat) (h : 1 ≤ m) :
    daysBeforeMonth y (m + 1) = daysBeforeMonth y m + daysInMonth y m := by
  match m, h with
  | m + 1, _ => rfl

theorem isLeapYear_iff (y : Nat) :
    isLeapYear y = true ↔ (y % 4 = 0 ∧ (y % 100 ≠ 0 ∨ y % 400 = 0)) := by
  simp [isLeapYear]

set_option maxHeartbeats 1600000 in
theorem daysBeforeYear_succ (y : Nat) (h : 1 ≤ y) :
    daysBeforeYear (y + 1) =
      daysBeforeYear y + (if isLeapYear y then 366 else 365) := by
  rw [daysBeforeYear, daysBeforeYear]
  by_cases hb : isLeapYear y = true
  · rw [if_pos hb]
    have hl := (isLeapYear_iff y).mp hb
    by_cases h4 : y % 4 = 0 <;> by_cases h100 : y % 100 = 0 <;>
      by_cases h400 : y % 400 = 0 <;> omega
  · rw [if_neg hb]
    have hl : ¬ (y % 4 = 0 ∧ (y % 100 ≠ 0 ∨ y % 400 = 0)) :=
      fun hc => hb ((isLeapYear_iff y).mpr hc)
    by_cases h4 : y % 4 = 0 <;> by_cases h100 : y % 100 = 0 <;>
      by_cases h400 : y % 400 = 0 <;> omega

theorem daysBeforeMonth_twelve (y : Nat) :
    daysBeforeMonth y 12 = if isLeapYear y then 335 else 334 := by
  by_cases h : isLeapYear y <;>
    simp [daysBeforeMonth, daysInMonth, h]

theorem toOrdinal_nextDay (d : Date) (h : okD d) :
    toOrdinal (nextDay d) = toOrdinal d + 1 := by
  obtain ⟨hy, hm1, hm12, hd1, hdm⟩ := h
  rw [nextDay]
  by_cases h1 : d.day < daysInMonth d.year d.month
  · rw [if_pos h1]
    show daysBeforeYear d.year + daysBeforeMonth d.year d.month + (d.day + 1) = _
    simp [toOrdinal]
    omega
  · rw [if_neg h1]
    have hde : d.day = daysInMonth d.year d.month := by omega
    by_cases h2 : d.month < 12
    · rw [if_pos h2]
      show daysBeforeYear d.year + daysBeforeMonth d.year (d.month + 1) + 1 = _
      rw [daysBeforeMonth_succ d.year d.month hm1]
      simp only [toOrdinal]
      omega
    · rw [if_neg h2]
      have hm : d.month = 12 := by omega
      show daysBeforeYear (d.year + 1) + daysBeforeMonth (d.year + 1) 1 + 1 = _
      rw [daysBeforeYear_succ d.year hy]
      simp only [toOrdinal, hm]
      rw [daysBeforeMonth_twelve d.year]
      have h31 : daysInMonth d.year 12 = 31 := by simp [daysInMonth]
      rw [hm, h31] at hde
      simp only [daysBeforeMonth]
      by_cases hl : isLeapYear d.year <;> simp [hl] <;> omega

theorem okD_nextDay (d : Date) (h : okD d) : okD (nextDay d) := by
  obtain ⟨hy, hm1, hm12, hd1, hdm⟩ := h
  rw [nextDay]
  by_cases h1 : d.day < daysInMonth d.year d.month
  · rw [if_pos h1]
    refine ⟨hy, hm1, hm12, ?_, ?_⟩
    · show 1 ≤ d.day + 1
      omega
    · show d.day + 1 ≤ daysInMonth d.year d.month
      omega
  · rw [if_neg h1]
    by_cases h2 : d.month < 12
    · rw [if_pos h2]
      refine ⟨hy, show 1 ≤ d.month + 1 by omega, show d.month + 1 ≤ 12 by omega,
        le_refl 1, ?_⟩
      show 1 ≤ daysInMonth d.year (d.month + 1)
      simp only [daysInMonth]
      split
      · split <;> omega
      · split <;> omega
    · rw [if_neg h2]
      refine ⟨show 1 ≤ d.year + 1 by omega, le_refl 1,
        show (1 : Nat) ≤ 12 by omega, le_refl 1, ?_⟩
      show 1 ≤ daysInMonth (d.year + 1) 1
      simp [daysInMonth]

theorem toOrdinal_addDays (d : Date) (n : Nat) (h : okD d) :
    toOrdinal (addDays d n) = toOrdinal d + n := by
  induction n generalizing d with
  | zero => rfl
  | succ n ih =>
    rw [addDays, ih (nextDay d) (okD_nextDay d h), toOrdinal_nextDay d h]
    omega

/-- The weekend adjustment in `get_upcoming_birthdays`:
`if congratulation_date.weekday() > 4: congratulation_date += timedelta(days=7 - weekday)`. -/
def shiftWeekend (d : Date) : Date :=
  if pyWeekday d > 4 then addDays d (7 - pyWeekday d) else d

theorem pyWeekday_addDays (d : Date) (n : Nat) (h : okD d) :
    pyWeekday (addDays d n) = (toOrdinal d + n + 6) % 7 := by
  rw [pyWeekday, toOrdinal_addDays d n h]

theorem shiftWeekend_monday (d : Date) (h : okD d) (hw : pyWeekday d > 4) :
    pyWeekday (shiftWeekend d) = 0 := by
  rw [shiftWeekend, if_pos hw, pyWeekday_addDays d _ h]
  rw [pyWeekday] at *
  omega

theorem toOrdinal_shiftWeekend_ge (d : Date) (h : okD d) :
    toOrdinal d ≤ toOrdinal (shiftWeekend d) := by
  rw [shiftWeekend]
  by_cases hw : pyWeekday d > 4
  · rw [if_pos hw, toOrdinal_addDays d _ h]
    omega
  · rw [if_neg hw]

theorem toOrdinal_shiftWeekend_le (d : Date) (h : okD d) :
    toOrdinal (shiftWeekend d) ≤ toOrdinal d + 2 := by
  rw [shiftWeekend]
  by_cases hw : pyWeekday d > 4
  · rw [if_pos hw, toOrdinal_addDays d _ h]
    have : pyWeekday d < 7 := by rw [pyWeekday]; omega
    omega
  · rw [if_neg hw]
    omega

/-! ## `strptime`/`strftime` for the `"%d.%m.%Y"` format -/

/-- Split a character list at every `'.'` (the literal separators of the
format string; the numeric fields can never contain a dot). -/
def splitDots : List Char → List (List Char)
  | [] => [[]]
  | c :: cs =>
    if c = '.' then [] :: splitDots cs
    else
      match splitDots cs with
      | [] => [[c]]
      | p :: ps => (c :: p) :: ps

theorem splitDots_ne_nil (l : List Char) : splitDots l ≠ [] := by
  match l with
  | [] => simp [splitDots]
  | c :: cs =>
    rw [splitDots]
    by_cases h : c = '.'
    · simp [h]
    · rw [if_neg h]
      match splitDots cs with
      | [] => simp
      | p :: ps => simp

theorem splitDots_cons_dot (cs : List Char) :
    splitDots ('.' :: cs) = [] :: splitDots cs := by
  rw [splitDots, if_pos rfl]

theorem splitDots_cons_ne (c : Char) (cs : List Char) (h : c ≠ '.')
    (p : List Char) (ps : List (List Char)) (hm : splitDots cs = p :: ps) :
    splitDots (c :: cs) = (c :: p) :: ps := by
  rw [splitDots, if_neg h, hm]

theorem splitDots_append_dot (a r : List Char) (h : ∀ c ∈ a, c ≠ '.') :
    splitDots (a ++ '.' :: r) = a :: splitDots r := by
  induction a with
  | nil => simpa using splitDots_cons_dot r
  | cons c a ih =>
    have hc : c ≠ '.' := h c (List.mem_cons_self c a)
    have ih' := ih (fun x hx => h x (List.mem_cons_of_mem c hx))
    rw [List.cons_append, splitDots_cons_ne c _ hc a (splitDots r) ih']

theorem splitDots_no_dot (a : List Char) (h : ∀ c ∈ a, c ≠ '.') :
    splitDots a = [a] := by
  induction a with
  | nil => rfl
  | cons c a ih =>
    have hc : c ≠ '.' := h c (List.mem_cons_self c a)
    have ih' := ih (fun x hx => h x (List.mem_cons_of_mem c hx))
    rw [splitDots_cons_ne c _ hc a [] ih']

/-- Rebuild the split string (inverse of `splitDots`). -/
def joinDots : List (List Char) → List Char
  | [] => []
  | [a] => a
  | a :: rest => a ++ '.' :: joinDots rest

theorem joinDots_cons (a : List Char) (p : List Char) (ps : List (List Char)) :
    joinDots (a :: p :: ps) = a ++ '.' :: joinDots (p :: ps) := by
  rfl

theorem joinDots_splitDots (l : List Char) : joinDots (splitDots l) = l := by
  induction l with
  | nil => rfl
  | cons c cs ih =>
    obtain ⟨p, ps, hm⟩ := List.exists_cons_of_ne_nil (splitDots_ne_nil cs)
    rw [hm] at ih
    by_cases h : c = '.'
    · subst h
      rw [splitDots_cons_dot, hm, joinDots_cons, ih]
      rfl
    · rw [splitDots_cons_ne c cs h p ps hm]
      cases ps with
      | nil =>
        simp only [joinDots] at ih ⊢
        simp [ih]
      | cons q qs =>
        rw [joinDots_cons] at ih ⊢
        simp [ih]

theorem splitDots_parts_no_dot (l : List Char) :
    ∀ p ∈ splitDots l, ∀ c ∈ p, c ≠ '.' := by
  induction l with
  | nil =>
    intro p hp
    simp only [splitDots, List.mem_singleton] at hp
    subst hp
    simp
  | cons c cs ih =>
    obtain ⟨p0, ps0, hm⟩ := List.exists_cons_of_ne_nil (splitDots_ne_nil cs)
    by_cases h : c = '.'
    · subst h
      rw [splitDots_cons_dot]
      intro p hp
      rcases List.mem_cons.mp hp with h1 | h2
      · subst h1; simp
      · exact ih p h2
    · rw [splitDots_cons_ne c cs h p0 ps0 hm]
      intro p hp
      rcases List.mem_cons.mp hp with h1 | h2
      · subst h1
        intro x hx
        rcases List.mem_cons.mp hx with h3 | h4
        · subst h3; exact h
        · exact ih p0 (hm ▸ List.mem_cons_self p0 ps0) x h4
      · exact ih p (hm ▸ List.mem_cons_of_mem p0 h2)

/-- All characters are ASCII decimal digits. -/
def allDigits (l : List Char) : Prop := ∀ c ∈ l, c.isDigit = true

instance (l : List Char) : Decidable (allDigits l) := by
  unfold allDigits
  infer_instance

/-- CPython `_strptime` field regex for `%d`: `3[01]|[12]\\d|0[1-9]|[1-9]`.
Every branch is made of ASCII literals and ASCII classes except the
single `\\d` after `[12]`, which matches any Unicode decimal digit. -/
def dayFieldOk (l : List Char) : Bool :=
  match l with
  | [c] => asciiDigit19 c
  | [c1, c2] =>
    (decide (c1 = '3') && (decide (c2 = '0') || decide (c2 = '1'))) ||
    (((decide (c1 = '1') || decide (c1 = '2')) && isNd c2) ||
      (decide (c1 = '0') && asciiDigit19 c2))
  | _ => false

/-- CPython `_strptime` field regex for `%m`: `1[0-2]|0[1-9]|[1-9]` —
ASCII only (the month pattern contains no `\\d`). -/
def monthFieldOk (l : List Char) : Bool :=
  match l with
  | [c] => asciiDigit19 c
  | [c1, c2] =>
    (decide (c1 = '1') && (decide ('0' ≤ c2) && decide (c2 ≤ '2'))) ||
    (decide (c1 = '0') && asciiDigit19 c2)
  | _ => false

/-- CPython `_strptime` field regex for `%Y`: `\\d\\d\\d\\d` — exactly four
Unicode decimal digits. -/
def yearFieldOk (l : List Char) : Bool :=
  decide (l.length = 4) && l.all isNd

/-- A matched `%d` field: the regex test, then `int()` on the captured
text. -/
def parseDayField (l : List Char) : Option Nat :=
  if dayFieldOk l = true then some (pyFieldVal l) else none

/-- A matched `%m` field. -/
def parseMonthField (l : List Char) : Option Nat :=
  if monthFieldOk l = true then some (pyFieldVal l) else none

/-- A matched `%Y` field. -/
def parseYearField (l : List Char) : Option Nat :=
  if yearFieldOk l = true then some (pyFieldVal l) else none

/-- Combine the three matched fields: construct the `datetime`
(which re-validates the year range and the day against the month). -/
def parseFields (ds ms ys : List Char) : Option Date :=
  match parseDayField ds, parseMonthField ms, parseYearField ys with
  | some d, some m, some y =>
    if dateOk ⟨y, m, d⟩ then some ⟨y, m, d⟩ else none
  | _, _, _ => none

/-- `datetime.strptime(v, "%d.%m.%Y")`, reduced to its date part:
split at the literal dots (so the string must contain exactly two),
match each field regex, then construct the `datetime`. -/
def parseDateChars (l : List Char) : Option Date :=
  match splitDots l with
  | [ds, ms, ys] => parseFields ds ms ys
  | _ => none

/-- `date.strftime("%d.%m.%Y")`: `%d` and `%m` zero-pad to two digits;
`%Y` prints the year\'s decimal digits without padding (the C library
behavior on this platform: a year below 1000 yields fewer than four
characters). -/
def formatDateChars (d : Date) : List Char :=
  natPad 2 d.day ++ ('.' :: (natPad 2 d.month ++ ('.' :: natDigits d.year)))

theorem natPad_no_dot (w n : Nat) : ∀ c ∈ natPad w n, c ≠ '.' := by
  intro c hc
  have := natPad_all_digit w n c hc
  intro he
  subst he
  simp at this

theorem natDigits_no_dot (n : Nat) : ∀ c ∈ natDigits n, c ≠ '.' := by
  intro c hc he
  have := natDigits_all_digit n c hc
  subst he
  simp at this

theorem splitDots_formatDateChars (d : Date) :
    splitDots (formatDateChars d) =
      [natPad 2 d.day, natPad 2 d.month, natDigits d.year] := by
  rw [formatDateChars,
    splitDots_append_dot _ _ (natPad_no_dot 2 d.day),
    splitDots_append_dot _ _ (natPad_no_dot 2 d.month),
    splitDots_no_dot _ (natDigits_no_dot d.year)]

theorem parseDayField_natPad (n : Nat) (h1 : 1 ≤ n) (h2 : n ≤ 31) :
    parseDayField (natPad 2 n) = some n := by
  interval_cases n <;> decide

theorem parseMonthField_natPad (n : Nat) (h1 : 1 ≤ n) (h2 : n ≤ 12) :
    parseMonthField (natPad 2 n) = some n := by
  interval_cases n <;> decide

theorem parseYearField_natDigits (n : Nat) (h1 : 1000 ≤ n) (h2 : n ≤ 9999) :
    parseYearField (natDigits n) = some n := by
  have hcond : yearFieldOk (natDigits n) = true := by
    rw [yearFieldOk]
    simp only [Bool.and_eq_true, decide_eq_true_eq, List.all_eq_true]
    exact ⟨natDigits_length_four n h1 (by omega),
      fun c hc => isNd_of_isDigit c (natDigits_all_digit n c hc)⟩
  rw [parseYearField, if_pos hcond,
    pyFieldVal_eq_digitsVal _ (natDigits_all_digit n), digitsVal_natDigits]

theorem parseDateChars_split (l ds ms ys : List Char)
    (h : splitDots l = [ds, ms, ys]) :
    parseDateChars l = parseFields ds ms ys := by
  rw [parseDateChars, h]

theorem parseFields_some (ds ms ys : List Char) (d m y : Nat)
    (hd : parseDayField ds = some d) (hm : parseMonthField ms = some m)
    (hy : parseYearField ys = some y) :
    parseFields ds ms ys =
      if dateOk ⟨y, m, d⟩ then some ⟨y, m, d⟩ else none := by
  rw [parseFields, hd, hm, hy]

theorem daysInMonth_le_31 (y m : Nat) : daysInMonth y m ≤ 31 := by
  rw [daysInMonth]
  split
  · split <;> omega
  · split <;> omega

theorem dateOk_fields (d : Date) (h : dateOk d = true) :
    1 ≤ d.year ∧ d.year ≤ 9999 ∧ 1 ≤ d.month ∧ d.month ≤ 12 ∧
      1 ≤ d.day ∧ d.day ≤ daysInMonth d.year d.month := by
  rw [dateOk] at h
  simp only [Bool.and_eq_true, decide_eq_true_eq] at h
  tauto

/-- Parsing inverts formatting on every constructible date whose year
has four digits (`%Y` output is unpadded, so a year below 1000 renders
with fewer than the four digits `%Y` requires on input). -/
theorem parseDateChars_formatDateChars (d : Date) (h : dateOk d = true)
    (hy : 1000 ≤ d.year) :
    parseDateChars (formatDateChars d) = some d := by
  have hb := dateOk_fields d h
  have hd31 : d.day ≤ 31 := le_trans hb.2.2.2.2.2 (daysInMonth_le_31 d.year d.month)
  rw [parseDateChars_split _ _ _ _ (splitDots_formatDateChars d),
    parseFields_some _ _ _ d.day d.month d.year
      (parseDayField_natPad d.day hb.2.2.2.2.1 hd31)
      (parseMonthField_natPad d.month hb.2.2.1 hb.2.2.2.1)
      (parseYearField_natDigits d.year hy hb.2.1)]
  rw [if_pos (by exact h)]

/-! ## Errors and validated fields (`src/contacts/fields.py`) -/

/-- The two error kinds raised by the core.  `valueError` embeds Python's
builtin `ValueError` (raised by `Record.find_phone` / `add_phone` /
`edit_phone` with f-string messages).  `validation` embeds
`core.exceptions.ValidationError`.  Modelled from the spec:
`core/exceptions.py` is not under `src/`; spec §7 lists ValidationError as
a distinct, recoverable error kind for malformed phone or date input,
surfaced verbatim, so it is kept as its own constructor carrying the
human-readable message. -/
inductive Err where
  | validation (msg : String)
  | valueError (msg : String)
deriving DecidableEq, Repr

/-- `re.fullmatch(r"^\d{10}$", value)`: exactly ten characters, each
matched by `\d` — i.e. each a Unicode decimal digit (category Nd), not
only an ASCII one. -/
def phoneValid (s : String) : Prop :=
  s.toList.length = 10 ∧ s.toList.all isNd = true

instance (s : String) : Decidable (phoneValid s) := by
  unfold phoneValid
  exact instDecidableAnd

/-- The message of `Phone.value`'s `ValidationError`. -/
def phoneErrMsg (s : String) : String :=
  "Wrong phone number was passed " ++ s ++ ", expected format 10 digits: 0123456789"

/-- `Phone(value)`: the `Phone.value` setter validates, then stores the
string unchanged; rendering (`Field.__str__`) returns the stored string. -/
def PhoneMk (s : String) : Except Err String :=
  if phoneValid s then .ok s
  else .error (.validation (phoneErrMsg s))

/-- Parse a Python string with `strptime(v, "%d.%m.%Y")`. -/
def parseDate (s : String) : Option Date := parseDateChars s.toList

/-- Render a date with `strftime("%d.%m.%Y")`. -/
def formatDate (d : Date) : String := String.mk (formatDateChars d)

/-- The message of `Birthday.value`'s `ValidationError`. -/
def birthdayErrMsg : String := "Invalid date format. Use DD.MM.YYYY"

/-- `Birthday(value)`: the `Birthday.value` setter parses the string with
`strptime` and stores the resulting `datetime`; any parse failure becomes
a `ValidationError`. -/
def BirthdayMk (s : String) : Except Err Date :=
  match parseDate s with
  | some d => .ok d
  | none => .error (.validation birthdayErrMsg)

/-- `Name(value)`: the base `Field` setter — no validation at all. -/
def NameMk (s : String) : String := s

/-! ## `Record` (`src/contacts/address_book.py`) -/

/-- A contact record: `__name : Name`, `__phones : list[Phone]`,
`__birthday : Birthday | None`.  `Phone` and `Name` wrap plain strings
and `Birthday` wraps a `datetime`, so the wrappers are elided. -/
structure Record where
  name : String
  phones : List String
  birthday : Option Date
deriving DecidableEq, Repr

/-- `Record(name)`: stores `Name(name)` (unvalidated), empty phone list,
no birthday. -/
def mkRecord (name : String) : Record := ⟨NameMk name, [], none⟩

/-- `Record.find_phone`: first phone whose `value` equals `phone`
(`none` embeds the raised `ValueError`). -/
def findPhone (r : Record) (p : String) : Option String :=
  r.phones.find? (fun q => q = p)

/-- `Record.phone_exists`. -/
def phoneExists (r : Record) (p : String) : Bool :=
  (findPhone r p).isSome

/-- Every operation returns the post-state record together with the raised
error, if any.  In the Python source every raise happens before any list
mutation (`Phone(phone)` is constructed — and validated — before
`list.append` runs, and the `Phone.value` setter assigns only after its
regex check), so on failure the record is returned unchanged. -/
abbrev OpResult := Record × Option Err

/-- `Record.add_phone`: if `find_phone` succeeds the duplicate
`ValueError` is raised; otherwise `Phone(phone)` is validated and
appended. -/
def addPhone (r : Record) (p : String) : OpResult :=
  match findPhone r p with
  | some _ => (r, some (.valueError ("Phone number " ++ p ++ " already exists")))
  | none =>
    if phoneValid p then ({ r with phones := r.phones ++ [p] }, none)
    else (r, some (.validation (phoneErrMsg p)))

/-- `Record.remove_phone`: `find_phone` then `list.remove` of the found
object (the first entry equal to `phone`). -/
def removePhone (r : Record) (p : String) : OpResult :=
  match findPhone r p with
  | some _ => ({ r with phones := r.phones.erase p }, none)
  | none => (r, some (.valueError ("Phone number " ++ p ++ " was not found")))

/-- Replace the first occurrence of `old` (the in-place
`old_phone_inst.value = new_phone` on the `Phone` object returned by
`find_phone`). -/
def replaceFirst : List String → String → String → List String
  | [], _, _ => []
  | x :: xs, o, n => if x = o then n :: xs else x :: replaceFirst xs o n

/-- `Record.edit_phone`: duplicate check on `new_phone` first, then
`find_phone(old_phone)`, then the validating assignment to the found
`Phone`'s `value`. -/
def editPhone (r : Record) (o n : String) : OpResult :=
  if phoneExists r n then
    (r, some (.valueError ("Phone number " ++ n ++ " already exists")))
  else
    match findPhone r o with
    | none => (r, some (.valueError ("Phone number " ++ o ++ " was not found")))
    | some _ =>
      if phoneValid n then ({ r with phones := replaceFirst r.phones o n }, none)
      else (r, some (.validation (phoneErrMsg n)))

/-- `Record.add_birthday`: `Birthday(birthday)` overwrites the stored
birthday; a `ValidationError` leaves it unchanged. -/
def addBirthday (r : Record) (s : String) : OpResult :=
  match BirthdayMk s with
  | .ok d => ({ r with birthday := some d }, none)
  | .error e => (r, some e)

/-- `Record.birthday_str`: formatted birthday or `None`. -/
def birthdayStr (r : Record) : Option String := r.birthday.map formatDate

/-! ## `AddressBook.get_upcoming_birthdays` -/

/-- One emitted entry (the `UpcomingBirthday` TypedDict). -/
structure UpcomingBirthday where
  name : String
  actual_date : String
  congratulation_date : String
deriving DecidableEq, Repr

/-- The body of the `for user in users` loop for one record: skip users
without a birthday (`birthday_str` is `None`; a formatted date is never
the empty string, the only other falsy value); re-parse `birthday_str`
with `strptime`, move it to the current year with `.replace(year=…)`
(an `Except.error` embeds the uncaught `ValueError` this can raise),
window-check `diff ≤ 7 and diff > -1`, weekend-shift, and emit. -/
def processRec (r : Record) (today : Date) : Except String (Option UpcomingBirthday) :=
  match r.birthday with
  | none => .ok none
  | some b =>
    let bs := formatDate b
    match parseDate bs with
    | none => .error "time data does not match format"
    | some p =>
      match replaceYear p today.year with
      | none => .error "day is out of range for month"
      | some c =>
        if dayDiff c today ≤ 7 ∧ dayDiff c today > -1 then
          .ok (some ⟨r.name, bs, formatDate (shiftWeekend c)⟩)
        else .ok none

/-- `AddressBook.get_upcoming_birthdays()`, over the book's records in
iteration (insertion) order; `Except.error` embeds an uncaught exception
escaping the loop. -/
def getUpcomingBirthdays (users : List Record) (today : Date) :
    Except String (List UpcomingBirthday) :=
  match users with
  | [] => .ok []
  | r :: rs =>
    match processRec r today with
    | .error e => .error e
    | .ok o =>
      match getUpcomingBirthdays rs today with
      | .error e => .error e
      | .ok rest =>
        .ok (match o with | some e => e :: rest | none => rest)

/-! ## Basic facts about records and phone lookup -/

theorem isDigit_iff_le (c : Char) : c.isDigit = true ↔ ('0' ≤ c ∧ c ≤ '9') := by
  simp [Char.isDigit, Char.le_def]

theorem findPhone_eq_none (r : Record) (p : String) :
    findPhone r p = none ↔ p ∉ r.phones := by
  rw [findPhone, List.find?_eq_none]
  constructor
  · intro h hp
    exact h p hp (by simp)
  · intro h q hq hdec
    simp only [decide_eq_true_eq] at hdec
    subst hdec
    exact h hq

theorem phoneExists_iff (r : Record) (p : String) :
    phoneExists r p = true ↔ p ∈ r.phones := by
  rw [phoneExists]
  rw [← Option.ne_none_iff_isSome]
  constructor
  · intro h
    by_contra hp
    exact h ((findPhone_eq_none r p).mpr hp)
  · intro h hn
    exact ((findPhone_eq_none r p).mp hn) h

theorem phoneExists_eq_false (r : Record) (p : String) :
    phoneExists r p = false ↔ p ∉ r.phones := by
  constructor
  · intro h hp
    have := (phoneExists_iff r p).mpr hp
    rw [h] at this
    exact Bool.false_ne_true this
  · intro h
    by_contra hb
    have : phoneExists r p = true := by
      cases hx : phoneExists r p
      · exact absurd hx hb
      · rfl
    exact h ((phoneExists_iff r p).mp this)

/-! ## Sequences of public record operations -/

/-- One public mutating operation on a record. -/
inductive Op where
  | add (p : String)
  | remove (p : String)
  | edit (o n : String)
  | birthday (s : String)

/-- Post-state of one operation (on failure the record is unchanged,
see `OpResult`). -/
def applyOp (r : Record) : Op → Record
  | .add p => (addPhone r p).1
  | .remove p => (removePhone r p).1
  | .edit o n => (editPhone r o n).1
  | .birthday s => (addBirthday r s).1

/-- Post-state of a sequence of operations. -/
def applyOps (r : Record) (ops : List Op) : Record := ops.foldl applyOp r

theorem applyOp_name (r : Record) (op : Op) : (applyOp r op).name = r.name := by
  cases op with
  | add p =>
    rw [applyOp, addPhone]
    cases findPhone r p
    · by_cases h : phoneValid p
      · rw [if_pos h]
      · rw [if_neg h]
    · rfl
  | remove p =>
    rw [applyOp, removePhone]
    cases findPhone r p <;> rfl
  | edit o n =>
    rw [applyOp, editPhone]
    by_cases h : phoneExists r n = true
    · rw [if_pos h]
    · rw [if_neg h]
      cases findPhone r o
      · rfl
      · by_cases hv : phoneValid n
        · rw [if_pos hv]
        · rw [if_neg hv]
  | birthday s =>
    rw [applyOp, addBirthday]
    cases BirthdayMk s <;> rfl

/-! ## C3: ten-digit phone validation -/

/-- Spec-side form of the claim: a string of exactly 10 decimal digit
characters (no separators, no leading `+` — any non-digit character,
including `+`, falsifies the second conjunct). -/
def tenDigitString (s : String) : Prop :=
  s.toList.length = 10 ∧ ∀ c ∈ s.toList, '0' ≤ c ∧ c ≤ '9'

instance (s : String) : Decidable (tenDigitString s) := by
  unfold tenDigitString
  infer_instance

/-- Spec-side form of the amended claim: a string of exactly 10 Unicode
decimal digit characters (category Nd). -/
def tenUnicodeDigitString (s : String) : Prop :=
  s.toList.length = 10 ∧ ∀ c ∈ s.toList, isNd c = true

instance (s : String) : Decidable (tenUnicodeDigitString s) := by
  unfold tenUnicodeDigitString
  infer_instance

theorem phoneValid_iff_tenUnicode (s : String) :
    phoneValid s ↔ tenUnicodeDigitString s := by
  rw [phoneValid, tenUnicodeDigitString, List.all_eq_true]

theorem tenUnicode_of_tenDigit (s : String) (h : tenDigitString s) :
    tenUnicodeDigitString s :=
  ⟨h.1, fun c hc => isNd_of_isDigit c ((isDigit_iff_le c).mpr (h.2 c hc))⟩

/-- C3 counterexample: `Phone("１２３４５６７８９０")` (ten fullwidth
digits, U+FF11–U+FF10) succeeds — Python\'s `\d` matches any Unicode
decimal digit — although the string is not made of ten decimal digits
`0`–`9`, so the claim\'s "for every other string, construction fails
with ValidationError" is false of the program. -/
theorem phone_unicode_digits_accepted :
    PhoneMk "１２３４５６７８９０" = .ok "１２３４５６７８９０" ∧
    ¬ tenDigitString "１２３４５６７８９０" := by
  constructor
  · rfl
  · decide

/-- C3 (amended): Phone construction succeeds, storing and rendering the
input string verbatim, exactly on strings of ten Unicode decimal digits
(category Nd) — in particular on every string of ten ASCII digits `0`–`9`
— and fails with a `ValidationError` carrying the fixed message on every
other string. -/
theorem phone_ten_digit_validation (s : String) :
    (tenDigitString s → PhoneMk s = .ok s) ∧
    (tenUnicodeDigitString s → PhoneMk s = .ok s) ∧
    (¬ tenUnicodeDigitString s → PhoneMk s = .error (.validation (phoneErrMsg s))) := by
  refine ⟨?_, ?_, ?_⟩
  · intro h
    rw [PhoneMk,
      if_pos ((phoneValid_iff_tenUnicode s).mpr (tenUnicode_of_tenDigit s h))]
  · intro h
    rw [PhoneMk, if_pos ((phoneValid_iff_tenUnicode s).mpr h)]
  · intro h
    rw [PhoneMk, if_neg (fun hv => h ((phoneValid_iff_tenUnicode s).mp hv))]

theorem phone_ten_digit_validation_witness :
    PhoneMk "0123456789" = .ok "0123456789" ∧
    PhoneMk "１２３４５６７８９０" = .ok "１２３４５６７８９０" ∧
    PhoneMk "012-345-67" = .error (.validation (phoneErrMsg "012-345-67")) :=
  ⟨(phone_ten_digit_validation "0123456789").1 (by decide),
   (phone_ten_digit_validation "１２３４５６７８９０").2.1 (by decide),
   (phone_ten_digit_validation "012-345-67").2.2 (by decide)⟩

/-! ## C7: record names -/

/-- C7 counterexample: `Record("")` does not fail — `Name` performs no
validation (its body is `pass`), so the empty string is accepted and
stored; the claim's "creating a record with the empty string as name
fails" is false. -/
theorem record_empty_name_accepted :
    mkRecord "" = { name := "", phones := [], birthday := none } := rfl

/-- C7 amended: record creation accepts any string as name, including the
empty string; the accepted name is stored verbatim and no public
operation changes it. -/
theorem record_name_verbatim_immutable (s : String) (ops : List Op) :
    (mkRecord s).name = s ∧ (applyOps (mkRecord s) ops).name = s := by
  refine ⟨rfl, ?_⟩
  suffices h : ∀ (r : Record) (l : List Op), (applyOps r l).name = r.name by
    rw [h (mkRecord s) ops]
    rfl
  intro r l
  induction l generalizing r with
  | nil => rfl
  | cons op l ih =>
    rw [applyOps, List.foldl_cons]
    rw [show List.foldl applyOp (applyOp r op) l = applyOps (applyOp r op) l from rfl]
    rw [ih (applyOp r op), applyOp_name]

/-! ## C8: no duplicate phones, ever -/

theorem mem_replaceFirst (l : List String) (o n x : String)
    (h : x ∈ replaceFirst l o n) : x = n ∨ x ∈ l := by
  induction l with
  | nil => simp [replaceFirst] at h
  | cons y ys ih =>
    rw [replaceFirst] at h
    by_cases hy : y = o
    · rw [if_pos hy] at h
      rcases List.mem_cons.mp h with h1 | h2
      · exact Or.inl h1
      · exact Or.inr (List.mem_cons_of_mem y h2)
    · rw [if_neg hy] at h
      rcases List.mem_cons.mp h with h1 | h2
      · exact Or.inr (h1 ▸ List.mem_cons_self y ys)
      · rcases ih h2 with h3 | h4
        · exact Or.inl h3
        · exact Or.inr (List.mem_cons_of_mem y h4)

theorem nodup_replaceFirst (l : List String) (o n : String)
    (hn : n ∉ l) (h : l.Nodup) : (replaceFirst l o n).Nodup := by
  induction l with
  | nil => simp [replaceFirst]
  | cons y ys ih =>
    rw [replaceFirst]
    have hys := (List.nodup_cons.mp h).2
    have hyn : y ∉ ys := (List.nodup_cons.mp h).1
    by_cases hy : y = o
    · rw [if_pos hy]
      exact List.nodup_cons.mpr ⟨fun hc => hn (List.mem_cons_of_mem y hc), hys⟩
    · rw [if_neg hy]
      refine List.nodup_cons.mpr ⟨?_, ih (fun hc => hn (List.mem_cons_of_mem y hc)) hys⟩
      intro hc
      rcases mem_replaceFirst ys o n y hc with h1 | h2
      · exact hn (h1 ▸ List.mem_cons_self y ys)
      · exact hyn h2

theorem nodup_applyOp (r : Record) (op : Op) (h : r.phones.Nodup) :
    (applyOp r op).phones.Nodup := by
  cases op with
  | add p =>
    rw [applyOp, addPhone]
    cases hf : findPhone r p with
    | some q => exact h
    | none =>
      by_cases hv : phoneValid p
      · rw [if_pos hv]
        have hp : p ∉ r.phones := (findPhone_eq_none r p).mp hf
        simp only [List.nodup_append, List.nodup_singleton]
        exact ⟨h, trivial, by simpa using fun hx => hp hx⟩
      · rw [if_neg hv]
        exact h
  | remove p =>
    rw [applyOp, removePhone]
    cases findPhone r p with
    | some q => exact List.Nodup.erase p h
    | none => exact h
  | edit o n =>
    rw [applyOp, editPhone]
    by_cases hd : phoneExists r n = true
    · rw [if_pos hd]
      exact h
    · rw [if_neg hd]
      cases hf : findPhone r o with
      | none => exact h
      | some q =>
        by_cases hv : phoneValid n
        · rw [if_pos hv]
          have hn : n ∉ r.phones := by
            rw [← phoneExists_eq_false]
            cases hx : phoneExists r n
            · rfl
            · exact absurd hx hd
          exact nodup_replaceFirst r.phones o n hn h
        · rw [if_neg hv]
          exact h
  | birthday s =>
    rw [applyOp, addBirthday]
    cases BirthdayMk s <;> exact h

/-- C8: every record reachable from creation by any sequence of public
operations has pairwise-distinct phone strings; each operation —
succeeding or failing — preserves the invariant. -/
theorem record_phones_nodup (s : String) (ops : List Op) :
    (applyOps (mkRecord s) ops).phones.Nodup := by
  suffices h : ∀ (r : Record) (l : List Op), r.phones.Nodup → (applyOps r l).phones.Nodup from
    h (mkRecord s) ops List.nodup_nil
  intro r l
  induction l generalizing r with
  | nil => exact fun h => h
  | cons op l ih =>
    intro h
    rw [applyOps, List.foldl_cons]
    exact ih (applyOp r op) (nodup_applyOp r op h)

/-! ## C6: duplicate phone rejection on `add_phone` -/

theorem findPhone_none_of_not_exists (r : Record) (p : String)
    (h : phoneExists r p = false) : findPhone r p = none := by
  cases hf : findPhone r p with
  | none => rfl
  | some q =>
    rw [phoneExists, hf] at h
    simp at h

/-- C6: on a record not containing the valid 10-digit phone `p`, the
first `add_phone(p)` appends `p` at the end of the phone list, and a
second `add_phone(p)` fails with the duplicate `ValueError` (a different
kind from `ValidationError`), leaving the list unchanged. -/
theorem add_phone_duplicate_rejected (r : Record) (p : String)
    (hv : phoneValid p) (hnot : phoneExists r p = false) :
    addPhone r p = ({ r with phones := r.phones ++ [p] }, none) ∧
    addPhone { r with phones := r.phones ++ [p] } p =
      ({ r with phones := r.phones ++ [p] },
        some (.valueError ("Phone number " ++ p ++ " already exists"))) := by
  constructor
  · rw [addPhone, findPhone_none_of_not_exists r p hnot, if_pos hv]
  · have hmem : p ∈ ({ r with phones := r.phones ++ [p] } : Record).phones :=
      List.mem_append.mpr (Or.inr (List.mem_singleton.mpr rfl))
    cases hf : findPhone { r with phones := r.phones ++ [p] } p with
    | none => exact absurd hmem ((findPhone_eq_none _ p).mp hf)
    | some q => rw [addPhone, hf]

theorem add_phone_duplicate_rejected_witness :
    addPhone (mkRecord "Carl") "0123456789" =
      ({ name := "Carl", phones := ["0123456789"], birthday := none }, none) ∧
    addPhone { name := "Carl", phones := ["0123456789"], birthday := none } "0123456789" =
      ({ name := "Carl", phones := ["0123456789"], birthday := none },
        some (.valueError "Phone number 0123456789 already exists")) := by
  have h := add_phone_duplicate_rejected (mkRecord "Carl") "0123456789"
    (by decide) (by decide)
  exact h

/-! ## C5: `edit_phone` failure modes and in-place success -/

theorem replaceFirst_eq_set (l : List String) (o n : String) (i : Nat)
    (hi : i < l.length) (ho : l.get ⟨i, hi⟩ = o)
    (hfirst : ∀ j (hj : j < i), l.get ⟨j, Nat.lt_trans hj hi⟩ ≠ o) :
    replaceFirst l o n = l.set i n := by
  induction l generalizing i with
  | nil => simp at hi
  | cons x xs ih =>
    rw [replaceFirst]
    by_cases hx : x = o
    · rw [if_pos hx]
      have hi0 : i = 0 := by
        by_contra hne
        have h0 : 0 < i := Nat.pos_of_ne_zero hne
        exact hfirst 0 h0 hx
      subst hi0
      rfl
    · rw [if_neg hx]
      cases i with
      | zero => exact absurd ho hx
      | succ i' =>
        have hi' : i' < xs.length := by
          simp only [List.length_cons] at hi
          omega
        rw [List.set_cons_succ]
        have ho' : xs.get ⟨i', hi'⟩ = o := ho
        have hfirst' : ∀ j (hj : j < i'), xs.get ⟨j, Nat.lt_trans hj hi'⟩ ≠ o := by
          intro j hj
          exact hfirst (j + 1) (by omega)
        rw [ih i' hi' ho' hfirst']

/-- C5: `edit_phone(old, new)` fails with the duplicate `ValueError`
whenever `new` is already on the record (checked first, before any
mutation), with the not-found `ValueError` when `old` is absent (and
`new` is no duplicate), and with a `ValidationError` when `new` is
malformed (and the two earlier checks pass); every failure leaves the
record unchanged.  On success the first entry equal to `old` is
overwritten with `new` at its original position (`List.set`), all other
phones unchanged. -/
theorem edit_phone_checks_and_in_place (r : Record) (o n : String) :
    (phoneExists r n = true →
      editPhone r o n =
        (r, some (.valueError ("Phone number " ++ n ++ " already exists")))) ∧
    (phoneExists r n = false → phoneExists r o = false →
      editPhone r o n =
        (r, some (.valueError ("Phone number " ++ o ++ " was not found")))) ∧
    (phoneExists r n = false → phoneExists r o = true → ¬ phoneValid n →
      editPhone r o n = (r, some (.validation (phoneErrMsg n)))) ∧
    (phoneExists r n = false → phoneExists r o = true → phoneValid n →
      ∀ i (hi : i < r.phones.length), r.phones.get ⟨i, hi⟩ = o →
        (∀ j (hj : j < i), r.phones.get ⟨j, Nat.lt_trans hj hi⟩ ≠ o) →
        editPhone r o n = ({ r with phones := r.phones.set i n }, none)) := by
  refine ⟨?_, ?_, ?_, ?_⟩
  · intro hd
    rw [editPhone, if_pos hd]
  · intro hd hno
    rw [editPhone, if_neg (by rw [hd]; exact Bool.false_ne_true),
      findPhone_none_of_not_exists r o hno]
  · intro hd ho hv
    rw [editPhone, if_neg (by rw [hd]; exact Bool.false_ne_true)]
    cases hf : findPhone r o with
    | none =>
      rw [phoneExists, hf] at ho
      simp at ho
    | some q => rw [if_neg hv]
  · intro hd ho hv i hi hgo hfirst
    rw [editPhone, if_neg (by rw [hd]; exact Bool.false_ne_true)]
    cases hf : findPhone r o with
    | none =>
      rw [phoneExists, hf] at ho
      simp at ho
    | some q =>
      rw [if_pos hv, replaceFirst_eq_set r.phones o n i hi hgo hfirst]

theorem edit_phone_checks_and_in_place_witness :
    (editPhone ⟨"A", ["0123456789", "1112223334"], none⟩ "1112223334" "0123456789" =
      (⟨"A", ["0123456789", "1112223334"], none⟩,
        some (.valueError "Phone number 0123456789 already exists"))) ∧
    (editPhone ⟨"A", ["0123456789", "1112223334"], none⟩ "9999999999" "2223334445" =
      (⟨"A", ["0123456789", "1112223334"], none⟩,
        some (.valueError "Phone number 9999999999 was not found"))) ∧
    (editPhone ⟨"A", ["0123456789", "1112223334"], none⟩ "0123456789" "12ab" =
      (⟨"A", ["0123456789", "1112223334"], none⟩,
        some (.validation (phoneErrMsg "12ab")))) ∧
    (editPhone ⟨"A", ["0123456789", "1112223334"], none⟩ "0123456789" "2223334445" =
      (⟨"A", ["2223334445", "1112223334"], none⟩, none)) := by
  refine ⟨?_, ?_, ?_, ?_⟩
  · exact (edit_phone_checks_and_in_place ⟨"A", ["0123456789", "1112223334"], none⟩
      "1112223334" "0123456789").1 (by decide)
  · exact (edit_phone_checks_and_in_place ⟨"A", ["0123456789", "1112223334"], none⟩
      "9999999999" "2223334445").2.1 (by decide) (by decide)
  · exact (edit_phone_checks_and_in_place ⟨"A", ["0123456789", "1112223334"], none⟩
      "0123456789" "12ab").2.2.1 (by decide) (by decide) (by decide)
  · exact (edit_phone_checks_and_in_place ⟨"A", ["0123456789", "1112223334"], none⟩
      "0123456789" "2223334445").2.2.2 (by decide) (by decide) (by decide)
      0 (by decide) (by decide) (fun j hj => absurd hj (Nat.not_lt_zero j))

/-! ## C4: birthday parsing and round-trip -/

theorem digitVal_le_nine (c : Char) (h : c.isDigit = true) : digitVal c ≤ 9 := by
  have := isDigit_toNat_bounds c h
  rw [digitVal]
  omega

theorem char_eq_of_digitVal_eq (c1 c2 : Char) (h1 : c1.isDigit = true)
    (h2 : c2.isDigit = true) (h : digitVal c1 = digitVal c2) : c1 = c2 := by
  have b1 := isDigit_toNat_bounds c1 h1
  have b2 := isDigit_toNat_bounds c2 h2
  rw [digitVal, digitVal] at h
  have e1 : c1.toNat = c1.val.toNat := rfl
  have e2 : c2.toNat = c2.val.toNat := rfl
  exact Char.eq_of_val_eq (UInt32.ext (by omega))

theorem digitsVal_cons (c : Char) (l : List Char) :
    digitsVal (c :: l) = digitVal c * 10 ^ l.length + digitsVal l := by
  rw [digitsVal, List.foldl_cons, foldl_digits_shift]
  simp only [Nat.mul_zero, Nat.zero_add]
  rfl

theorem digitsVal_lt (l : List Char) (h : allDigits l) :
    digitsVal l < 10 ^ l.length := by
  induction l with
  | nil => rw [digitsVal]; simp
  | cons c cs ih =>
    rw [digitsVal_cons, List.length_cons]
    have hc : digitVal c ≤ 9 := digitVal_le_nine c (h c (List.mem_cons_self c cs))
    have hcs := ih (fun x hx => h x (List.mem_cons_of_mem c hx))
    have : 10 ^ (cs.length + 1) = 10 * 10 ^ cs.length := by ring
    rw [this]
    nlinarith

/-- Two digit strings of equal length and equal value are equal. -/
theorem digits_inj (l1 l2 : List Char) (h1 : allDigits l1) (h2 : allDigits l2)
    (hlen : l1.length = l2.length) (hval : digitsVal l1 = digitsVal l2) :
    l1 = l2 := by
  induction l1 generalizing l2 with
  | nil =>
    cases l2 with
    | nil => rfl
    | cons c cs => simp at hlen
  | cons c cs ih =>
    cases l2 with
    | nil => simp at hlen
    | cons d ds =>
      simp only [List.length_cons, Nat.add_right_cancel_iff] at hlen
      rw [digitsVal_cons, digitsVal_cons, hlen] at hval
      have hc : digitVal c ≤ 9 := digitVal_le_nine c (h1 c (List.mem_cons_self c cs))
      have hd : digitVal d ≤ 9 := digitVal_le_nine d (h2 d (List.mem_cons_self d ds))
      have hcs : allDigits cs := fun x hx => h1 x (List.mem_cons_of_mem c hx)
      have hds : allDigits ds := fun x hx => h2 x (List.mem_cons_of_mem d hx)
      have hlcs := digitsVal_lt cs hcs
      have hlds := digitsVal_lt ds hds
      rw [hlen] at hlcs
      have hdd : digitVal c = digitVal d := by
        by_contra hne
        rcases Nat.lt_or_ge (digitVal c) (digitVal d) with hlt | hge
        · nlinarith
        · have : digitVal d < digitVal c := by omega
          nlinarith
      have hv' : digitsVal cs = digitsVal ds := by
        rw [hdd] at hval
        omega
      rw [char_eq_of_digitVal_eq c d (h1 c (List.mem_cons_self c cs))
        (h2 d (List.mem_cons_self d ds)) hdd, ih ds hcs hds hlen hv']

theorem natPad_digitsVal_two (l : List Char) (hlen : l.length = 2)
    (hdig : allDigits l) : natPad 2 (digitsVal l) = l := by
  have hv := digitsVal_lt l hdig
  rw [hlen] at hv
  exact digits_inj _ l (natPad_all_digit 2 _) hdig
    (by rw [natPad_length_two _ (by simpa using hv), hlen]) (digitsVal_natPad 2 _)

theorem natPad_digitsVal_four (l : List Char) (hlen : l.length = 4)
    (hdig : allDigits l) : natPad 4 (digitsVal l) = l := by
  have hv := digitsVal_lt l hdig
  rw [hlen] at hv
  exact digits_inj _ l (natPad_all_digit 4 _) hdig
    (by rw [natPad_length_four _ (by simpa using hv), hlen]) (digitsVal_natPad 4 _)

theorem natDigits_digitsVal_four (l : List Char) (hlen : l.length = 4)
    (hdig : allDigits l) (hv : 1000 ≤ digitsVal l) :
    natDigits (digitsVal l) = l := by
  have hlt := digitsVal_lt l hdig
  rw [hlen] at hlt
  exact digits_inj _ l (natDigits_all_digit _) hdig
    (by rw [natDigits_length_four _ hv (by simpa using hlt), hlen]) (digitsVal_natDigits _)

theorem parseDayField_some (l : List Char) (v : Nat) (h : parseDayField l = some v) :
    dayFieldOk l = true ∧ v = pyFieldVal l := by
  rw [parseDayField] at h
  split at h
  · rename_i hc
    injection h with hv
    exact ⟨hc, hv.symm⟩
  · exact absurd h (Option.noConfusion)

theorem parseMonthField_some (l : List Char) (v : Nat) (h : parseMonthField l = some v) :
    monthFieldOk l = true ∧ v = pyFieldVal l := by
  rw [parseMonthField] at h
  split at h
  · rename_i hc
    injection h with hv
    exact ⟨hc, hv.symm⟩
  · exact absurd h (Option.noConfusion)

theorem parseYearField_some (l : List Char) (v : Nat) (h : parseYearField l = some v) :
    yearFieldOk l = true ∧ v = pyFieldVal l := by
  rw [parseYearField] at h
  split at h
  · rename_i hc
    injection h with hv
    exact ⟨hc, hv.symm⟩
  · exact absurd h (Option.noConfusion)

theorem dayFieldOk_cases (l : List Char) (h : dayFieldOk l = true) :
    (∃ c, l = [c] ∧ asciiDigit19 c = true) ∨
    (∃ c1 c2, l = [c1, c2] ∧
      ((c1 = '3' ∧ (c2 = '0' ∨ c2 = '1')) ∨
        ((c1 = '1' ∨ c1 = '2') ∧ isNd c2 = true) ∨
        (c1 = '0' ∧ asciiDigit19 c2 = true))) := by
  cases l with
  | nil =>
    simp only [dayFieldOk] at h
    exact absurd h Bool.false_ne_true
  | cons c1 rest =>
    cases rest with
    | nil =>
      simp only [dayFieldOk] at h
      exact Or.inl ⟨c1, rfl, h⟩
    | cons c2 rest2 =>
      cases rest2 with
      | nil =>
        simp only [dayFieldOk, Bool.or_eq_true, Bool.and_eq_true,
          decide_eq_true_eq] at h
        exact Or.inr ⟨c1, c2, rfl, h⟩
      | cons c3 rest3 =>
        simp only [dayFieldOk] at h
        exact absurd h Bool.false_ne_true

theorem monthFieldOk_cases (l : List Char) (h : monthFieldOk l = true) :
    (∃ c, l = [c] ∧ asciiDigit19 c = true) ∨
    (∃ c1 c2, l = [c1, c2] ∧
      ((c1 = '1' ∧ ('0' ≤ c2 ∧ c2 ≤ '2')) ∨ (c1 = '0' ∧ asciiDigit19 c2 = true))) := by
  cases l with
  | nil =>
    simp only [monthFieldOk] at h
    exact absurd h Bool.false_ne_true
  | cons c1 rest =>
    cases rest with
    | nil =>
      simp only [monthFieldOk] at h
      exact Or.inl ⟨c1, rfl, h⟩
    | cons c2 rest2 =>
      cases rest2 with
      | nil =>
        simp only [monthFieldOk, Bool.or_eq_true, Bool.and_eq_true,
          decide_eq_true_eq] at h
        exact Or.inr ⟨c1, c2, rfl, h⟩
      | cons c3 rest3 =>
        simp only [monthFieldOk] at h
        exact absurd h Bool.false_ne_true

theorem asciiDigit19_ne_dot (c : Char) (h : asciiDigit19 c = true) : c ≠ '.' := by
  intro he
  subst he
  exact absurd h (by decide)

theorem dayFieldOk_no_dot (l : List Char) (h : dayFieldOk l = true) :
    ∀ c ∈ l, c ≠ '.' := by
  rcases dayFieldOk_cases l h with ⟨c, rfl, hc⟩ | ⟨c1, c2, rfl, hcs⟩
  · intro x hx
    rw [List.mem_singleton] at hx
    subst hx
    exact asciiDigit19_ne_dot x hc
  · intro x hx
    rcases List.mem_cons.mp hx with rfl | hx2
    · rcases hcs with ⟨h3, _⟩ | ⟨h12, _⟩ | ⟨h0, _⟩
      · subst h3; decide
      · rcases h12 with rfl | rfl <;> decide
      · subst h0; decide
    · rw [List.mem_singleton] at hx2
      subst hx2
      rcases hcs with ⟨_, h01⟩ | ⟨_, hnd⟩ | ⟨_, h19⟩
      · rcases h01 with rfl | rfl <;> decide
      · exact isNd_ne_dot _ hnd
      · exact asciiDigit19_ne_dot _ h19

theorem monthFieldOk_no_dot (l : List Char) (h : monthFieldOk l = true) :
    ∀ c ∈ l, c ≠ '.' := by
  rcases monthFieldOk_cases l h with ⟨c, rfl, hc⟩ | ⟨c1, c2, rfl, hcs⟩
  · intro x hx
    rw [List.mem_singleton] at hx
    subst hx
    exact asciiDigit19_ne_dot x hc
  · intro x hx
    rcases List.mem_cons.mp hx with rfl | hx2
    · rcases hcs with ⟨h1, _⟩ | ⟨h0, _⟩
      · subst h1; decide
      · subst h0; decide
    · rw [List.mem_singleton] at hx2
      subst hx2
      rcases hcs with ⟨_, hr1, hr2⟩ | ⟨_, h19⟩
      · intro he
        subst he
        exact absurd hr1 (by decide)
      · exact asciiDigit19_ne_dot _ h19

theorem yearFieldOk_no_dot (l : List Char) (h : yearFieldOk l = true) :
    ∀ c ∈ l, c ≠ '.' := by
  rw [yearFieldOk, Bool.and_eq_true, List.all_eq_true] at h
  exact fun c hc => isNd_ne_dot c (h.2 c hc)

theorem parseDateChars_some (l : List Char) (d : Date)
    (h : parseDateChars l = some d) :
    ∃ ds ms ys, splitDots l = [ds, ms, ys] ∧
      parseDayField ds = some d.day ∧ parseMonthField ms = some d.month ∧
      parseYearField ys = some d.year ∧ dateOk d = true := by
  rw [parseDateChars] at h
  split at h
  · rename_i ds ms ys heq
    refine ⟨ds, ms, ys, heq, ?_⟩
    rw [parseFields] at h
    split at h
    · rename_i dv mv yv hd hm hy
      split at h
      · rename_i hok
        injection h with hde
        subst hde
        exact ⟨hd, hm, hy, hok⟩
      · exact absurd h (Option.noConfusion)
    · exact absurd h (Option.noConfusion)
  · exact absurd h (Option.noConfusion)

theorem allDigits_no_dot (l : List Char) (h : allDigits l) : ∀ c ∈ l, c ≠ '.' := by
  intro c hc he
  have := h c hc
  subst he
  simp at this

/-! Spec-side predicates for the amended C4, written from the claim's
words rather than from the implementation. -/

/-- `s` is the zero-padded `DD.MM.YYYY` rendering of the valid calendar
date `d`: ten characters, dots at positions 2 and 5, all other characters
decimal digits, whose place values give `d`'s day, month and year. -/
def paddedDateString (s : String) (d : Date) : Prop :=
  s.toList.length = 10 ∧
  s.toList.get? 2 = some '.' ∧ s.toList.get? 5 = some '.' ∧
  allDigits (s.toList.take 2) ∧
  allDigits ((s.toList.drop 3).take 2) ∧
  allDigits (s.toList.drop 6) ∧
  d.day = digitsVal (s.toList.take 2) ∧
  d.month = digitsVal ((s.toList.drop 3).take 2) ∧
  d.year = digitsVal (s.toList.drop 6) ∧
  dateOk d = true

instance (s : String) (d : Date) : Decidable (paddedDateString s d) := by
  unfold paddedDateString
  infer_instance

/-- The strings Birthday construction actually accepts: `day.month.year`
where the day matches `%d` (an ASCII digit 1–9; or `3` then `0`/`1`;
`1`/`2` then any Unicode decimal digit; `0` then an ASCII digit 1–9), the
month matches `%m` (an ASCII digit 1–9; `1` then `0`–`2`; `0` then an
ASCII digit 1–9 — ASCII only), the year is exactly four Unicode decimal
digits, and the `int()` values of the three fields form a constructible
calendar date. -/
def flexibleDateString (s : String) : Prop :=
  ∃ ds ms ys : List Char,
    s.toList = ds ++ '.' :: (ms ++ '.' :: ys) ∧
    dayFieldOk ds = true ∧ monthFieldOk ms = true ∧ yearFieldOk ys = true ∧
    dateOk ⟨pyFieldVal ys, pyFieldVal ms, pyFieldVal ds⟩ = true

theorem padded_lengths (l : List Char) (hlen : l.length = 10) :
    (l.take 2).length = 2 ∧ ((l.drop 3).take 2).length = 2 ∧
      (l.drop 6).length = 4 := by
  refine ⟨?_, ?_, ?_⟩
  · rw [List.length_take, hlen]
    decide
  · rw [List.length_take, List.length_drop, hlen]
    decide
  · rw [List.length_drop, hlen]

theorem padded_decomp (l : List Char) (hlen : l.length = 10)
    (hg2 : l.get? 2 = some '.') (hg5 : l.get? 5 = some '.') :
    l = l.take 2 ++ ('.' :: ((l.drop 3).take 2 ++ ('.' :: l.drop 6))) := by
  have hd2 : l.drop 2 = '.' :: l.drop 3 := by
    have h2l : 2 < l.length := by omega
    rw [List.drop_eq_get_cons h2l]
    rw [List.get?_eq_get h2l] at hg2
    injection hg2 with h
    rw [h]
  have hd5 : l.drop 5 = '.' :: l.drop 6 := by
    have h5l : 5 < l.length := by omega
    rw [List.drop_eq_get_cons h5l]
    rw [List.get?_eq_get h5l] at hg5
    injection hg5 with h
    rw [h]
  have hsplit3 : (l.drop 3).drop 2 = l.drop 5 := by
    rw [List.drop_drop]
  conv_lhs => rw [← List.take_append_drop 2 l]
  rw [hd2]
  conv_lhs => rw [← List.take_append_drop 2 (l.drop 3)]
  rw [hsplit3, hd5]

theorem padded_chars_eq_format (l : List Char) (d : Date)
    (hlen : l.length = 10) (hg2 : l.get? 2 = some '.') (hg5 : l.get? 5 = some '.')
    (h1 : allDigits (l.take 2)) (h2 : allDigits ((l.drop 3).take 2))
    (h3 : allDigits (l.drop 6))
    (hday : d.day = digitsVal (l.take 2))
    (hmon : d.month = digitsVal ((l.drop 3).take 2))
    (hyear : d.year = digitsVal (l.drop 6))
    (hy4 : 1000 ≤ d.year) :
    formatDateChars d = l := by
  obtain ⟨hl1, hl2, hl3⟩ := padded_lengths l hlen
  rw [hyear] at hy4
  rw [formatDateChars, hday, hmon, hyear,
    natPad_digitsVal_two (l.take 2) hl1 h1,
    natPad_digitsVal_two ((l.drop 3).take 2) hl2 h2,
    natDigits_digitsVal_four (l.drop 6) hl3 h3 hy4]
  exact (padded_decomp l hlen hg2 hg5).symm

theorem list_pair_of_length_two (l : List Char) (h : l.length = 2) :
    ∃ a b, l = [a, b] := by
  cases l with
  | nil => simp at h
  | cons a rest =>
    cases rest with
    | nil => simp at h
    | cons b rest2 =>
      cases rest2 with
      | nil => exact ⟨a, b, rfl⟩
      | cons c rest3 => simp at h

theorem digitsVal_pair (a b : Char) :
    digitsVal [a, b] = 10 * digitVal a + digitVal b := by
  simp only [digitsVal, List.foldl_cons, List.foldl_nil]
  omega

theorem charLe_of_toNat (a b : Char) (h : a.toNat ≤ b.toNat) : a ≤ b := by
  rw [Char.le_def, uint32_le_iff]
  exact h

theorem dayFieldOk_of_padded (c1 c2 : Char) (h1 : c1.isDigit = true)
    (h2 : c2.isDigit = true) (hlo : 1 ≤ 10 * digitVal c1 + digitVal c2)
    (hhi : 10 * digitVal c1 + digitVal c2 ≤ 31) :
    dayFieldOk [c1, c2] = true := by
  have b1 := isDigit_toNat_bounds c1 h1
  have b2 := isDigit_toNat_bounds c2 h2
  simp only [dayFieldOk, Bool.or_eq_true, Bool.and_eq_true, decide_eq_true_eq]
  have hv1 : digitVal c1 ≤ 9 := by rw [digitVal]; omega
  have hv2 : digitVal c2 ≤ 9 := by rw [digitVal]; omega
  by_cases hz : digitVal c1 = 0
  · refine Or.inr (Or.inr ⟨?_, (asciiDigit19_iff c2).mpr ⟨h2, by omega⟩⟩)
    exact char_eq_of_digitVal_eq c1 '0' h1 (by decide) (by rw [hz]; rfl)
  · by_cases h12 : digitVal c1 ≤ 2
    · refine Or.inr (Or.inl ⟨?_, isNd_of_isDigit c2 h2⟩)
      by_cases ho : digitVal c1 = 1
      · exact Or.inl (char_eq_of_digitVal_eq c1 '1' h1 (by decide) (by rw [ho]; rfl))
      · refine Or.inr (char_eq_of_digitVal_eq c1 '2' h1 (by decide) ?_)
        have : digitVal c1 = 2 := by omega
        rw [this]
        rfl
    · have h3 : digitVal c1 = 3 := by omega
      refine Or.inl ⟨char_eq_of_digitVal_eq c1 '3' h1 (by decide) (by rw [h3]; rfl), ?_⟩
      have hb1 : digitVal c2 ≤ 1 := by omega
      by_cases hb0 : digitVal c2 = 0
      · exact Or.inl (char_eq_of_digitVal_eq c2 '0' h2 (by decide) (by rw [hb0]; rfl))
      · refine Or.inr (char_eq_of_digitVal_eq c2 '1' h2 (by decide) ?_)
        have : digitVal c2 = 1 := by omega
        rw [this]
        rfl

theorem monthFieldOk_of_padded (c1 c2 : Char) (h1 : c1.isDigit = true)
    (h2 : c2.isDigit = true) (hlo : 1 ≤ 10 * digitVal c1 + digitVal c2)
    (hhi : 10 * digitVal c1 + digitVal c2 ≤ 12) :
    monthFieldOk [c1, c2] = true := by
  have b1 := isDigit_toNat_bounds c1 h1
  have b2 := isDigit_toNat_bounds c2 h2
  simp only [monthFieldOk, Bool.or_eq_true, Bool.and_eq_true, decide_eq_true_eq]
  have hv1 : digitVal c1 ≤ 9 := by rw [digitVal]; omega
  have hv2 : digitVal c2 ≤ 9 := by rw [digitVal]; omega
  by_cases hz : digitVal c1 = 0
  · refine Or.inr ⟨?_, (asciiDigit19_iff c2).mpr ⟨h2, by omega⟩⟩
    exact char_eq_of_digitVal_eq c1 '0' h1 (by decide) (by rw [hz]; rfl)
  · have ho : digitVal c1 = 1 := by omega
    refine Or.inl ⟨char_eq_of_digitVal_eq c1 '1' h1 (by decide) (by rw [ho]; rfl),
      ?_, ?_⟩
    · refine charLe_of_toNat '0' c2 ?_
      show (48 : Nat) ≤ c2.toNat
      omega
    · refine charLe_of_toNat c2 '2' ?_
      show c2.toNat ≤ (50 : Nat)
      have : digitVal c2 ≤ 2 := by omega
      rw [digitVal] at this
      omega

theorem yearFieldOk_of_ascii (l : List Char) (hlen : l.length = 4)
    (hdig : allDigits l) : yearFieldOk l = true := by
  rw [yearFieldOk]
  simp only [Bool.and_eq_true, decide_eq_true_eq, List.all_eq_true]
  exact ⟨hlen, fun c hc => isNd_of_isDigit c (hdig c hc)⟩

/-- The zero-padded form parses to its denoted date even when the year
has leading zeros (the year field accepts any four digits). -/
theorem padded_parse (s : String) (d : Date) (hp : paddedDateString s d) :
    parseDate s = some d := by
  obtain ⟨hlen, hg2, hg5, h1, h2, h3, hday, hmon, hyear, hok⟩ := hp
  obtain ⟨hl1, hl2, hl3⟩ := padded_lengths s.toList hlen
  have hb := dateOk_fields d hok
  have hsplit : splitDots s.toList =
      [s.toList.take 2, (s.toList.drop 3).take 2, s.toList.drop 6] := by
    conv_lhs => rw [padded_decomp s.toList hlen hg2 hg5]
    rw [splitDots_append_dot _ _ (allDigits_no_dot _ h1),
      splitDots_append_dot _ _ (allDigits_no_dot _ h2),
      splitDots_no_dot _ (allDigits_no_dot _ h3)]
  obtain ⟨a1, a2, hpair1⟩ := list_pair_of_length_two _ hl1
  obtain ⟨b1, b2, hpair2⟩ := list_pair_of_length_two _ hl2
  have hd31 : d.day ≤ 31 := le_trans hb.2.2.2.2.2 (daysInMonth_le_31 d.year d.month)
  have hdayv : d.day = 10 * digitVal a1 + digitVal a2 := by
    rw [hday, hpair1, digitsVal_pair]
  have hmonv : d.month = 10 * digitVal b1 + digitVal b2 := by
    rw [hmon, hpair2, digitsVal_pair]
  rw [hpair1] at h1
  rw [hpair2] at h2
  have hdOk : dayFieldOk [a1, a2] = true :=
    dayFieldOk_of_padded a1 a2 (h1 a1 (by simp)) (h1 a2 (by simp))
      (by omega) (by omega)
  have hmOk : monthFieldOk [b1, b2] = true :=
    monthFieldOk_of_padded b1 b2 (h2 b1 (by simp)) (h2 b2 (by simp))
      (by omega) (by omega)
  have hdparse : parseDayField (s.toList.take 2) = some d.day := by
    rw [hpair1, parseDayField, if_pos hdOk,
      pyFieldVal_eq_digitsVal _ h1, ← hpair1, ← hday]
  have hmparse : parseMonthField ((s.toList.drop 3).take 2) = some d.month := by
    rw [hpair2, parseMonthField, if_pos hmOk,
      pyFieldVal_eq_digitsVal _ h2, ← hpair2, ← hmon]
  have hyparse : parseYearField (s.toList.drop 6) = some d.year := by
    rw [parseYearField, if_pos (yearFieldOk_of_ascii _ hl3 h3),
      pyFieldVal_eq_digitsVal _ h3, ← hyear]
  rw [parseDate, parseDateChars_split _ _ _ _ hsplit,
    parseFields_some _ _ _ d.day d.month d.year hdparse hmparse hyparse]
  rw [if_pos (by exact hok)]

theorem dateOk_okD (d : Date) (h : dateOk d = true) : okD d := by
  have := dateOk_fields d h
  exact ⟨this.1, this.2.2.1, this.2.2.2.1, this.2.2.2.2⟩

theorem parse_format_eq (b p : Date)
    (h : parseDateChars (formatDateChars b) = some p) : p = b := by
  obtain ⟨ds, ms, ys, hsp, hd, hm, hy, _⟩ := parseDateChars_some _ p h
  rw [splitDots_formatDateChars b] at hsp
  injection hsp with h1 hsp
  injection hsp with h2 hsp
  injection hsp with h3 hsp
  obtain ⟨_, hvd⟩ := parseDayField_some ds p.day hd
  obtain ⟨_, hvm⟩ := parseMonthField_some ms p.month hm
  obtain ⟨_, hvy⟩ := parseYearField_some ys p.year hy
  rw [← h1, pyFieldVal_eq_digitsVal _ (natPad_all_digit 2 b.day),
    digitsVal_natPad] at hvd
  rw [← h2, pyFieldVal_eq_digitsVal _ (natPad_all_digit 2 b.month),
    digitsVal_natPad] at hvm
  rw [← h3, pyFieldVal_eq_digitsVal _ (natDigits_all_digit b.year),
    digitsVal_natDigits] at hvy
  cases p
  cases b
  simp only at hvd hvm hvy
  rw [hvd, hvm, hvy]

theorem replaceYear_some (d : Date) (y : Nat) (c : Date)
    (h : replaceYear d y = some c) :
    c = ⟨y, d.month, d.day⟩ ∧ dateOk c = true := by
  rw [replaceYear] at h
  split at h
  · rename_i hok
    injection h with h
    subst h
    exact ⟨rfl, hok⟩
  · exact absurd h (Option.noConfusion)

/-- The claim's wording of the weekend shift: Saturday (weekday 5) moves
forward 2 days, Sunday (weekday 6) moves 1 day, all other days are
unshifted. -/
def claimShift (c : Date) : Date :=
  if pyWeekday c = 5 then addDays c 2
  else if pyWeekday c = 6 then addDays c 1
  else c

theorem shiftWeekend_eq_claimShift (c : Date) : shiftWeekend c = claimShift c := by
  have h7 : pyWeekday c < 7 := by
    rw [pyWeekday]
    omega
  rw [shiftWeekend, claimShift]
  by_cases h5 : pyWeekday c = 5
  · rw [if_pos (by omega), if_pos h5, h5]
  · by_cases h6 : pyWeekday c = 6
    · rw [if_pos (by omega), if_neg h5, if_pos h6, h6]
    · rw [if_neg (by omega), if_neg h5, if_neg h6]

/-- Spec-side per-record emission, written from the claim's words: the
stored day and month reinterpreted into today's year give the candidate
congratulation date; it is emitted when `−1 < diff ≤ 7`, with
`actual_date` the original (unshifted, original-year) birthday string and
`congratulation_date` shifted by 2 days from Saturday or 1 day from
Sunday to the following Monday. -/
def specEmit (today : Date) (r : Record) : Option UpcomingBirthday :=
  match r.birthday with
  | none => none
  | some b =>
    if dateOk ⟨today.year, b.month, b.day⟩ = true then
      if -1 < dayDiff ⟨today.year, b.month, b.day⟩ today ∧
          dayDiff ⟨today.year, b.month, b.day⟩ today ≤ 7 then
        some ⟨r.name, formatDate b, formatDate (claimShift ⟨today.year, b.month, b.day⟩)⟩
      else none
    else none

theorem parseDate_formatDate (b : Date) :
    parseDate (formatDate b) = parseDateChars (formatDateChars b) := rfl

theorem processRec_ok_eq_specEmit (r : Record) (today : Date)
    (o : Option UpcomingBirthday) (h : processRec r today = .ok o) :
    o = specEmit today r := by
  cases hb : r.birthday with
  | none =>
    simp only [processRec, hb] at h
    injection h with h
    simp only [specEmit, hb]
    exact h.symm
  | some b =>
    cases hp : parseDate (formatDate b) with
    | none =>
      simp only [processRec, hb, hp] at h
      exact absurd h (Except.noConfusion)
    | some p =>
      have hpb : p = b := parse_format_eq b p hp
      subst hpb
      cases hrY : replaceYear p today.year with
      | none =>
        simp only [processRec, hb, hp, hrY] at h
        exact absurd h (Except.noConfusion)
      | some c =>
        obtain ⟨hc, hcok⟩ := replaceYear_some p today.year c hrY
        simp only [processRec, hb, hp, hrY] at h
        simp only [specEmit, hb]
        subst hc
        rw [if_pos hcok]
        by_cases hw : dayDiff ⟨today.year, p.month, p.day⟩ today ≤ 7 ∧
            dayDiff ⟨today.year, p.month, p.day⟩ today > -1
        · rw [if_pos hw] at h
          rw [if_pos ⟨hw.2, hw.1⟩]
          injection h with h
          rw [← h, shiftWeekend_eq_claimShift]
        · rw [if_neg hw] at h
          rw [if_neg (fun hx => hw ⟨hx.2, hx.1⟩)]
          injection h with h
          exact h.symm

theorem getUpcomingBirthdays_ok_cons (r : Record) (rs : List Record)
    (today : Date) (res : List UpcomingBirthday)
    (h : getUpcomingBirthdays (r :: rs) today = .ok res) :
    ∃ o rest, processRec r today = .ok o ∧
      getUpcomingBirthdays rs today = .ok rest ∧
      res = (match o with | some e => e :: rest | none => rest) := by
  rw [getUpcomingBirthdays] at h
  cases hp : processRec r today with
  | error e =>
    rw [hp] at h
    exact absurd h (Except.noConfusion)
  | ok o =>
    rw [hp] at h
    cases hrest : getUpcomingBirthdays rs today with
    | error e =>
      rw [hrest] at h
      exact absurd h (Except.noConfusion)
    | ok rest =>
      rw [hrest] at h
      injection h with h
      exact ⟨o, rest, rfl, rfl, h.symm⟩

/-- C2: on success the emitted list is exactly the spec-side
per-record emission mapped over the book's records in insertion order
(no sorting): `actual_date` is the original stored birthday string and
`congratulation_date` shifts a Saturday candidate by 2 days and a Sunday
candidate by 1 day; and any shifted (weekend) candidate lands on a
Monday. -/
theorem upcoming_entries_shift_order (users : List Record) (today : Date)
    (res : List UpcomingBirthday)
    (hok : getUpcomingBirthdays users today = .ok res) :
    res = users.filterMap (specEmit today) ∧
    (∀ c : Date, dateOk c = true → 4 < pyWeekday c →
      pyWeekday (shiftWeekend c) = 0) := by
  constructor
  · induction users generalizing res with
    | nil =>
      rw [getUpcomingBirthdays] at hok
      injection hok with h
      rw [← h, List.filterMap_nil]
    | cons u us ih =>
      obtain ⟨o, rest, hpo, hrest, hres⟩ :=
        getUpcomingBirthdays_ok_cons u us today res hok
      have ho := processRec_ok_eq_specEmit u today o hpo
      rw [List.filterMap_cons, hres, ho]
      cases specEmit today u with
      | none => exact ih rest hrest
      | some e => rw [ih rest hrest]
  · intro c hcok hw
    exact shiftWeekend_monday c (dateOk_okD c hcok) hw

theorem upcoming_entries_shift_order_witness :
    ([⟨"Ann", "13.01.2000", "15.01.2024"⟩] : List UpcomingBirthday) =
      [(⟨"Ann", [], some ⟨2000, 1, 13⟩⟩ : Record)].filterMap
        (specEmit ⟨2024, 1, 6⟩) ∧
    pyWeekday (shiftWeekend ⟨2024, 1, 13⟩) = 0 := by
  have h := upcoming_entries_shift_order [⟨"Ann", [], some ⟨2000, 1, 13⟩⟩]
    ⟨2024, 1, 6⟩ [⟨"Ann", "13.01.2000", "15.01.2024"⟩] rfl
  exact ⟨h.1, h.2 ⟨2024, 1, 13⟩ (by decide) (by decide)⟩

theorem specEmit_some_name (today : Date) (r : Record) (e : UpcomingBirthday)
    (h : specEmit today r = some e) : e.name = r.name := by
  rw [specEmit] at h
  split at h
  · exact absurd h (Option.noConfusion)
  · split at h
    · split at h
      · injection h with h
        rw [← h]
      · exact absurd h (Option.noConfusion)
    · exact absurd h (Option.noConfusion)

theorem upcoming_names (users : List Record) (today : Date)
    (res : List UpcomingBirthday)
    (hok : getUpcomingBirthdays users today = .ok res) :
    ∀ e ∈ res, ∃ r ∈ users, e.name = r.name := by
  induction users generalizing res with
  | nil =>
    rw [getUpcomingBirthdays] at hok
    injection hok with h
    rw [← h]
    intro e he
    exact absurd he (List.not_mem_nil e)
  | cons u us ih =>
    obtain ⟨o, rest, hpo, hrest, hres⟩ :=
      getUpcomingBirthdays_ok_cons u us today res hok
    have ho := processRec_ok_eq_specEmit u today o hpo
    intro e he
    subst hres
    cases o with
    | none =>
      obtain ⟨r, hr, hn⟩ := ih rest hrest e he
      exact ⟨r, List.mem_cons_of_mem u hr, hn⟩
    | some e0 =>
      rcases List.mem_cons.mp he with h1 | h2
      · subst h1
        exact ⟨u, List.mem_cons_self u us,
          specEmit_some_name today u e ho.symm⟩
      · obtain ⟨r, hr, hn⟩ := ih rest hrest e h2
        exact ⟨r, List.mem_cons_of_mem u hr, hn⟩

/-- The claim's per-record inclusion condition: a birthday is set and the
day/month reinterpreted into today's year (the `replace(year=…)` call)
gives a date whose whole-day distance from today lies in `(−1, 7]`. -/
def inclusionCond (r : Record) (today : Date) : Prop :=
  ∃ b, r.birthday = some b ∧ ∃ c, replaceYear b today.year = some c ∧
    -1 < dayDiff c today ∧ dayDiff c today ≤ 7

theorem processRec_some_iff (r : Record) (today : Date)
    (o : Option UpcomingBirthday) (h : processRec r today = .ok o) :
    (∃ e, o = some e) ↔ inclusionCond r today := by
  rw [inclusionCond]
  cases hb : r.birthday with
  | none =>
    simp only [processRec, hb] at h
    injection h with h
    subst h
    constructor
    · rintro ⟨e, he⟩
      exact absurd he (Option.noConfusion)
    · rintro ⟨b, hb', _⟩
      exact absurd hb' (Option.noConfusion)
  | some b =>
    cases hp : parseDate (formatDate b) with
    | none =>
      simp only [processRec, hb, hp] at h
      exact absurd h (Except.noConfusion)
    | some p =>
      have hpb : p = b := parse_format_eq b p hp
      subst hpb
      cases hrY : replaceYear p today.year with
      | none =>
        simp only [processRec, hb, hp, hrY] at h
        exact absurd h (Except.noConfusion)
      | some c =>
        simp only [processRec, hb, hp, hrY] at h
        by_cases hw : dayDiff c today ≤ 7 ∧ dayDiff c today > -1
        · rw [if_pos hw] at h
          injection h with h
          subst h
          constructor
          · intro _
            exact ⟨p, rfl, c, hrY, hw.2, hw.1⟩
          · intro _
            exact ⟨_, rfl⟩
        · rw [if_neg hw] at h
          injection h with h
          subst h
          constructor
          · rintro ⟨e, he⟩
            exact absurd he (Option.noConfusion)
          · rintro ⟨b', hb', c', hc', hw1, hw2⟩
            injection hb' with hb'
            subst hb'
            rw [hrY] at hc'
            injection hc' with hc'
            subst hc'
            exact absurd ⟨hw2, hw1⟩ hw

/-- C1: with distinct record names (an address book maps unique names to
records carrying that name), a record contributes an entry to a
successful `get_upcoming_birthdays` result exactly when it has a birthday
whose reinterpretation into today's year lies within `−1 < diff ≤ 7`
whole days of today.  In particular `diff = 7` is included, `diff = 8` is
not, and records without a birthday never appear. -/
theorem upcoming_inclusion_iff (users : List Record) (today : Date)
    (res : List UpcomingBirthday)
    (hok : getUpcomingBirthdays users today = .ok res)
    (r : Record) (hr : r ∈ users)
    (hnames : (users.map Record.name).Nodup) :
    (∃ e ∈ res, e.name = r.name) ↔ inclusionCond r today := by
  induction users generalizing res with
  | nil => exact absurd hr (List.not_mem_nil r)
  | cons u us ih =>
    obtain ⟨o, rest, hpo, hrest, hres⟩ :=
      getUpcomingBirthdays_ok_cons u us today res hok
    rw [List.map_cons, List.nodup_cons] at hnames
    obtain ⟨hu_notin, hnodup'⟩ := hnames
    rcases List.mem_cons.mp hr with rfl | hr'
    · rw [← processRec_some_iff r today o hpo]
      constructor
      · rintro ⟨e, he, hname⟩
        subst hres
        cases o with
        | some e0 =>
          rcases List.mem_cons.mp he with h1 | h2
          · subst h1
            exact ⟨e, rfl⟩
          · obtain ⟨r', hr', hn'⟩ := upcoming_names us today rest hrest e h2
            have hmem : r.name ∈ us.map Record.name := by
              rw [← hname, hn']
              exact List.mem_map_of_mem Record.name hr'
            exact absurd hmem hu_notin
        | none =>
          obtain ⟨r', hr', hn'⟩ := upcoming_names us today rest hrest e he
          have hmem : r.name ∈ us.map Record.name := by
            rw [← hname, hn']
            exact List.mem_map_of_mem Record.name hr'
          exact absurd hmem hu_notin
      · rintro ⟨e, he⟩
        subst he
        subst hres
        exact ⟨e, List.mem_cons_self e rest,
          specEmit_some_name today r e (processRec_ok_eq_specEmit r today _ hpo).symm⟩
    · have huname : u.name ≠ r.name := by
        intro hc
        apply hu_notin
        rw [hc]
        exact List.mem_map_of_mem Record.name hr'
      rw [← ih rest hrest hr' hnodup']
      constructor
      · rintro ⟨e, he, hname⟩
        subst hres
        cases o with
        | some e0 =>
          rcases List.mem_cons.mp he with h1 | h2
          · subst h1
            have := specEmit_some_name today u e
              (processRec_ok_eq_specEmit u today _ hpo).symm
            exact absurd (this ▸ hname) huname
          · exact ⟨e, h2, hname⟩
        | none => exact ⟨e, he, hname⟩
      · rintro ⟨e, he, hname⟩
        subst hres
        cases o with
        | some e0 => exact ⟨e, List.mem_cons_of_mem e0 he, hname⟩
        | none => exact ⟨e, he, hname⟩

theorem upcoming_inclusion_iff_witness :
    ((∃ e ∈ [(⟨"Bob", "10.06.2000", "10.06.2024"⟩ : UpcomingBirthday)],
        e.name = "Bob") ↔
      inclusionCond ⟨"Bob", [], some ⟨2000, 6, 10⟩⟩ ⟨2024, 6, 8⟩) ∧
    ((∃ e ∈ ([] : List UpcomingBirthday), e.name = "Far") ↔
      inclusionCond ⟨"Far", [], some ⟨2000, 6, 16⟩⟩ ⟨2024, 6, 8⟩) := by
  constructor
  · exact upcoming_inclusion_iff
      [⟨"Anna", [], none⟩, ⟨"Bob", [], some ⟨2000, 6, 10⟩⟩] ⟨2024, 6, 8⟩
      [⟨"Bob", "10.06.2000", "10.06.2024"⟩] rfl
      ⟨"Bob", [], some ⟨2000, 6, 10⟩⟩ (by simp) (by simp)
  · exact upcoming_inclusion_iff
      [⟨"Far", [], some ⟨2000, 6, 16⟩⟩] ⟨2024, 6, 8⟩ [] rfl
      ⟨"Far", [], some ⟨2000, 6, 16⟩⟩ (by simp) (by simp)

/-! ## C9: Feb 29 birthdays in a non-leap current year -/

theorem processRec_error_propagates (users : List Record) (today : Date)
    (r : Record) (hr : r ∈ users) (msg : String)
    (herr : processRec r today = .error msg) :
    ∃ m, getUpcomingBirthdays users today = .error m := by
  induction users with
  | nil => exact absurd hr (List.not_mem_nil r)
  | cons u us ih =>
    cases hpu : processRec u today with
    | error e =>
      refine ⟨e, ?_⟩
      simp only [getUpcomingBirthdays, hpu]
    | ok o =>
      rcases List.mem_cons.mp hr with rfl | hr'
      · rw [herr] at hpu
        exact absurd hpu (Except.noConfusion)
      · obtain ⟨m, hm⟩ := ih hr'
        refine ⟨m, ?_⟩
        simp only [getUpcomingBirthdays, hpu, hm]

/-- C9: a stored birthday of February 29 (of a leap year), reinterpreted
into a non-leap current year, makes `get_upcoming_birthdays` raise
instead of skipping the record and returning a list: for a four-digit
stored year the `replace(year=…)` call fails with "day is out of range
for month"; for a stored year below 1000 the unpadded `%Y` rendering
already fails the re-parse. -/
theorem feb29_nonleap_errors (users : List Record) (today : Date)
    (r : Record) (hr : r ∈ users) (y : Nat)
    (hb : r.birthday = some ⟨y, 2, 29⟩) (hy1 : 1 ≤ y) (hy2 : y ≤ 9999)
    (hleap : isLeapYear y = true) (hnl : isLeapYear today.year = false) :
    ∃ msg, getUpcomingBirthdays users today = .error msg := by
  by_cases hy4 : 1000 ≤ y
  · have hok : dateOk ⟨y, 2, 29⟩ = true := by
      simp [dateOk, daysInMonth, hleap]
      omega
    have hparse : parseDate (formatDate (⟨y, 2, 29⟩ : Date)) = some ⟨y, 2, 29⟩ := by
      rw [parseDate_formatDate]
      exact parseDateChars_formatDateChars _ hok hy4
    have hrY : replaceYear ⟨y, 2, 29⟩ today.year = none := by
      rw [replaceYear]
      rw [if_neg]
      intro hc
      have := dateOk_fields _ hc
      simp only at this
      have h28 : daysInMonth today.year 2 = 28 := by
        simp [daysInMonth, hnl]
      omega
    have herr : processRec r today = .error "day is out of range for month" := by
      simp only [processRec, hb, hparse, hrY]
    exact processRec_error_propagates users today r hr _ herr
  · have hyear : parseYearField (natDigits y) = none := by
      rw [parseYearField, if_neg]
      intro hc
      rw [yearFieldOk] at hc
      simp only [Bool.and_eq_true, decide_eq_true_eq] at hc
      have := natDigits_length_le_three y (by omega)
      omega
    have hparse : parseDate (formatDate (⟨y, 2, 29⟩ : Date)) = none := by
      rw [parseDate_formatDate,
        parseDateChars_split _ _ _ _ (splitDots_formatDateChars _)]
      simp only [parseFields, parseDayField_natPad 29 (by omega) (by omega),
        parseMonthField_natPad 2 (by omega) (by omega), hyear]
    have herr : processRec r today = .error "time data does not match format" := by
      simp only [processRec, hb, hparse]
    exact processRec_error_propagates users today r hr _ herr

theorem feb29_nonleap_errors_witness :
    ∃ msg, getUpcomingBirthdays [⟨"Leap", [], some ⟨2020, 2, 29⟩⟩]
      ⟨2023, 6, 8⟩ = .error msg :=
  feb29_nonleap_errors [⟨"Leap", [], some ⟨2020, 2, 29⟩⟩] ⟨2023, 6, 8⟩
    ⟨"Leap", [], some ⟨2020, 2, 29⟩⟩ (List.mem_singleton.mpr rfl) 2020
    rfl (by decide) (by decide) (by decide) (by decide)

/-! ## C10: the weekend shift can leave the 7-day window -/

instance (d : Date) : Decidable (okD d) := by
  unfold okD
  infer_instance

/-- C10: because the weekend shift runs after the window check, a
birthday exactly 7 days ahead that falls on a Saturday is emitted with a
congratulation date 9 days ahead (today + 9 > today + 7); and the shift
never moves a date earlier (nor more than 2 days later) than the
reinterpreted birthday. -/
theorem shift_can_leave_window :
    (getUpcomingBirthdays [⟨"Ann", [], some ⟨2000, 1, 13⟩⟩] ⟨2024, 1, 6⟩ =
        .ok [⟨"Ann", "13.01.2000", "15.01.2024"⟩] ∧
      parseDate "15.01.2024" = some ⟨2024, 1, 15⟩ ∧
      dayDiff ⟨2024, 1, 15⟩ ⟨2024, 1, 6⟩ = 9) ∧
    (∀ c : Date, okD c →
      toOrdinal c ≤ toOrdinal (shiftWeekend c) ∧
      toOrdinal (shiftWeekend c) ≤ toOrdinal c + 2) := by
  constructor
  · exact ⟨rfl, rfl, by decide⟩
  · intro c h
    exact ⟨toOrdinal_shiftWeekend_ge c h, toOrdinal_shiftWeekend_le c h⟩

theorem shift_can_leave_window_witness :
    getUpcomingBirthdays [⟨"Ann", [], some ⟨2000, 1, 13⟩⟩] ⟨2024, 1, 6⟩ =
      .ok [⟨"Ann", "13.01.2000", "15.01.2024"⟩] ∧
    (toOrdinal ⟨2024, 1, 13⟩ ≤ toOrdinal (shiftWeekend ⟨2024, 1, 13⟩) ∧
      toOrdinal (shiftWeekend ⟨2024, 1, 13⟩) ≤ toOrdinal ⟨2024, 1, 13⟩ + 2) :=
  ⟨shift_can_leave_window.1.1,
    shift_can_leave_window.2 ⟨2024, 1, 13⟩ (by decide)⟩

end Contacts
